import Mathlib

/-!
Shallow embedding of the FLV decoder from `src/parser.rs` (rust-av/flavors).

Bytes are modelled as `Nat` values (each `< 256` in any real input); byte
slices are `List Nat`.  The nom `IResult` outcome is modelled by `PResult`:
`complete value remainder` for `Ok((remainder, value))`,
`incomplete n` for `Err(Err::Incomplete(Needed::new(n)))`,
`error` for `Err(Err::Error(_))` and `failure` for `Err(Err::Failure(_))`.

`f64` values are modelled by their 64-bit big-endian bit pattern (a `Nat`),
which is exactly what the byte-level decoder extracts; no floating-point
semantics are needed for any decode-level statement.  Rust `&str` values are
modelled by their underlying UTF-8 byte lists, with validity checked by a
byte-level UTF-8 validator mirroring `str::from_utf8`.
-/

namespace Flavors

inductive PResult (α : Type) : Type where
  | complete : α → List Nat → PResult α
  | incomplete : Nat → PResult α
  | error : PResult α
  | failure : PResult α
deriving Repr, DecidableEq

def pbind {α β : Type} : PResult α → (α → List Nat → PResult β) → PResult β
  | .complete v rem, f => f v rem
  | .incomplete n, _ => .incomplete n
  | .error, _ => .error
  | .failure, _ => .failure

def pmap {α β : Type} (f : α → β) : PResult α → PResult β
  | .complete v rem => .complete (f v) rem
  | .incomplete n => .incomplete n
  | .error => .error
  | .failure => .failure

/-- Big-endian value of a byte list (how nom's `be_uX` assemble bytes). -/
def beVal (l : List Nat) : Nat :=
  l.foldl (fun a b => a * 256 + b) 0

/-- nom's streaming fixed-width big-endian reader: needs `k` bytes, reports
the missing count when the input is shorter (`Needed::new(k - len)`). -/
def readBE (k : Nat) (input : List Nat) : PResult Nat :=
  if input.length < k then .incomplete (k - input.length)
  else .complete (beVal (input.take k)) (input.drop k)

def be_u8 : List Nat → PResult Nat
  | [] => .incomplete 1
  | b :: rest => .complete b rest

def be_u16 (input : List Nat) : PResult Nat := readBE 2 input

def be_u24 (input : List Nat) : PResult Nat := readBE 3 input

def be_u32 (input : List Nat) : PResult Nat := readBE 4 input

/-- `be_f64`, modelled as the 8-byte big-endian bit pattern of the float. -/
def be_f64 (input : List Nat) : PResult Nat := readBE 8 input

/-- Two's-complement reinterpretation of a `k`-bit unsigned value. -/
def signed (bits : Nat) (n : Nat) : Int :=
  if n < 2 ^ (bits - 1) then (n : Int) else (n : Int) - 2 ^ bits

def be_i16 (input : List Nat) : PResult Int := pmap (signed 16) (readBE 2 input)

def be_i24 (input : List Nat) : PResult Int := pmap (signed 24) (readBE 3 input)

/-- nom's streaming `bytes::streaming::take(k)`. -/
def takeBytes (k : Nat) (input : List Nat) : PResult (List Nat) :=
  if input.length < k then .incomplete (k - input.length)
  else .complete (input.take k) (input.drop k)

/-- nom's streaming `bytes::streaming::tag(t)`: compares byte by byte; a
mismatch anywhere in the overlap is a hard error even when the input is
shorter than the tag; a matching short input is incomplete by the number of
missing tag bytes. -/
def tagLit : List Nat → List Nat → PResult Unit
  | [], rest => .complete () rest
  | _ :: ts, [] => .incomplete (ts.length + 1)
  | t :: ts, b :: bs => if b = t then tagLit ts bs else .error

/-- Byte-level UTF-8 validity, mirroring `str::from_utf8` (RFC 3629:
no overlong encodings, no surrogates, nothing above U+10FFFF). -/
def validUtf8 : List Nat → Bool
  | [] => true
  | b :: rest =>
    if b < 0x80 then validUtf8 rest
    else if b < 0xC2 then false
    else if b < 0xE0 then
      match rest with
      | c1 :: r => 0x80 ≤ c1 && c1 < 0xC0 && validUtf8 r
      | _ => false
    else if b < 0xF0 then
      match rest with
      | c1 :: c2 :: r =>
        (if b = 0xE0 then 0xA0 ≤ c1 && c1 < 0xC0
         else if b = 0xED then 0x80 ≤ c1 && c1 < 0xA0
         else 0x80 ≤ c1 && c1 < 0xC0) &&
        (0x80 ≤ c2 && c2 < 0xC0) && validUtf8 r
      | _ => false
    else if b < 0xF5 then
      match rest with
      | c1 :: c2 :: c3 :: r =>
        (if b = 0xF0 then 0x90 ≤ c1 && c1 < 0xC0
         else if b = 0xF4 then 0x80 ≤ c1 && c1 < 0x90
         else 0x80 ≤ c1 && c1 < 0xC0) &&
        (0x80 ≤ c2 && c2 < 0xC0) && (0x80 ≤ c3 && c3 < 0xC0) && validUtf8 r
      | _ => false
    else false

structure Header where
  version : Nat
  audio : Bool
  video : Bool
  offset : Nat
deriving Repr, DecidableEq

/-- `header`: `tuple((tag("FLV"), be_u8, be_u8, be_u32))` with
`audio = flags & 4 == 4`, `video = flags & 1 == 1`. -/
def header (input : List Nat) : PResult Header :=
  pbind (tagLit [0x46, 0x4C, 0x56] input) fun _ r1 =>
  pbind (be_u8 r1) fun version r2 =>
  pbind (be_u8 r2) fun flags r3 =>
  pmap (fun offset =>
    { version := version
      audio := flags &&& 4 == 4
      video := flags &&& 1 == 1
      offset := offset }) (be_u32 r3)

inductive TagType where
  | Audio
  | Video
  | Script
deriving Repr, DecidableEq

structure TagHeader where
  tag_type : TagType
  data_size : Nat
  timestamp : Nat
  stream_id : Nat
deriving Repr, DecidableEq

/-- `tag_type`: `be_u8` then `{8 → Audio, 9 → Video, 18 → Script}`,
anything else `Err::Error`. -/
def tag_type (input : List Nat) : PResult TagType :=
  pbind (be_u8 input) fun t rest =>
    match t with
    | 8 => .complete .Audio rest
    | 9 => .complete .Video rest
    | 18 => .complete .Script rest
    | _ => .error

/-- `tag_header`: `tuple((tag_type, be_u24, be_u24, be_u8, be_u24))`. -/
def tag_header (input : List Nat) : PResult TagHeader :=
  pbind (tag_type input) fun tt r1 =>
  pbind (be_u24 r1) fun data_size r2 =>
  pbind (be_u24 r2) fun timestamp r3 =>
  pbind (be_u8 r3) fun timestamp_extended r4 =>
  pmap (fun stream_id =>
    { tag_type := tt
      data_size := data_size
      timestamp := timestamp_extended * 2 ^ 24 + timestamp
      stream_id := stream_id }) (be_u24 r4)

inductive SoundFormat where
  | PCM_NE
  | ADPCM
  | MP3
  | PCM_LE
  | NELLYMOSER_16KHZ_MONO
  | NELLYMOSER_8KHZ_MONO
  | NELLYMOSER
  | PCM_ALAW
  | PCM_ULAW
  | AAC
  | SPEEX
  | MP3_8KHZ
  | DEVICE_SPECIFIC
deriving Repr, DecidableEq

inductive SoundRate where
  | _5_5KHZ
  | _11KHZ
  | _22KHZ
  | _44KHZ
deriving Repr, DecidableEq

inductive SoundSize where
  | Snd8bit
  | Snd16bit
deriving Repr, DecidableEq

inductive SoundType where
  | SndMono
  | SndStereo
deriving Repr, DecidableEq

structure AudioData where
  sound_format : SoundFormat
  sound_rate : SoundRate
  sound_size : SoundSize
  sound_type : SoundType
  sound_data : List Nat
deriving Repr, DecidableEq

def soundFormatOfCode : Nat → Option SoundFormat
  | 0 => some .PCM_NE
  | 1 => some .ADPCM
  | 2 => some .MP3
  | 3 => some .PCM_LE
  | 4 => some .NELLYMOSER_16KHZ_MONO
  | 5 => some .NELLYMOSER_8KHZ_MONO
  | 6 => some .NELLYMOSER
  | 7 => some .PCM_ALAW
  | 8 => some .PCM_ULAW
  | 10 => some .AAC
  | 11 => some .SPEEX
  | 14 => some .MP3_8KHZ
  | 15 => some .DEVICE_SPECIFIC
  | _ => none

def soundRateOfCode : Nat → Option SoundRate
  | 0 => some ._5_5KHZ
  | 1 => some ._11KHZ
  | 2 => some ._22KHZ
  | 3 => some ._44KHZ
  | _ => none

/-- `audio_data(input, size)`: two guard checks, then the packed bitfields of
byte 0 (`take(4), take(2), take(1), take(1)` most-significant-bit-first),
`sound_data = input[1..size]`, remainder `input[size..]`. -/
def audio_data (input : List Nat) (size : Nat) : PResult AudioData :=
  if input.length < size then .incomplete size
  else if size < 1 then .incomplete 1
  else
    match input with
    | [] => .incomplete 1
    | b :: _ =>
      match soundFormatOfCode (b / 16) with
      | none => .error
      | some sformat =>
        match soundRateOfCode (b / 4 % 4) with
        | none => .error
        | some srate =>
          let ssize : SoundSize := if b / 2 % 2 = 0 then .Snd8bit else .Snd16bit
          let stype : SoundType := if b % 2 = 0 then .SndMono else .SndStereo
          .complete
            { sound_format := sformat
              sound_rate := srate
              sound_size := ssize
              sound_type := stype
              sound_data := (input.take size).drop 1 } (input.drop size)

inductive FrameType where
  | Key
  | Inter
  | DisposableInter
  | Generated
  | Command
deriving Repr, DecidableEq

inductive CodecId where
  | JPEG
  | SORENSON_H263
  | SCREEN
  | VP6
  | VP6A
  | SCREEN2
  | H264
  | H263
  | MPEG4Part2
deriving Repr, DecidableEq

structure VideoData where
  frame_type : FrameType
  codec_id : CodecId
  video_data : List Nat
deriving Repr, DecidableEq

def frameTypeOfCode : Nat → Option FrameType
  | 1 => some .Key
  | 2 => some .Inter
  | 3 => some .DisposableInter
  | 4 => some .Generated
  | 5 => some .Command
  | _ => none

def codecIdOfCode : Nat → Option CodecId
  | 1 => some .JPEG
  | 2 => some .SORENSON_H263
  | 3 => some .SCREEN
  | 4 => some .VP6
  | 5 => some .VP6A
  | 6 => some .SCREEN2
  | 7 => some .H264
  | 8 => some .H263
  | 9 => some .MPEG4Part2
  | _ => none

/-- `video_data(input, size)`: guards, then packed frame-type/codec-id byte,
`video_data = input[1..size]`, remainder `input[size..]`. -/
def video_data (input : List Nat) (size : Nat) : PResult VideoData :=
  if input.length < size then .incomplete size
  else if size < 1 then .incomplete 1
  else
    match input with
    | [] => .incomplete 1
    | b :: _ =>
      match frameTypeOfCode (b / 16) with
      | none => .error
      | some ft =>
        match codecIdOfCode (b % 16) with
        | none => .error
        | some cid =>
          .complete
            { frame_type := ft
              codec_id := cid
              video_data := (input.take size).drop 1 } (input.drop size)

inductive AACPacketType where
  | SequenceHeader
  | Raw
deriving Repr, DecidableEq

structure AACAudioPacket where
  packet_type : AACPacketType
  aac_data : List Nat
deriving Repr, DecidableEq

/-- `aac_audio_packet(input, size)`: guards, 1-byte packet type,
`aac_data = input[1..size]`, remainder `input[size..]`. -/
def aac_audio_packet (input : List Nat) (size : Nat) : PResult AACAudioPacket :=
  if input.length < size then .incomplete size
  else if size < 1 then .incomplete 1
  else
    match input with
    | [] => .incomplete 1
    | b :: _ =>
      match b with
      | 0 => .complete
          { packet_type := .SequenceHeader
            aac_data := (input.take size).drop 1 } (input.drop size)
      | 1 => .complete
          { packet_type := .Raw
            aac_data := (input.take size).drop 1 } (input.drop size)
      | _ => .error

inductive AVCPacketType where
  | SequenceHeader
  | NALU
  | EndOfSequence
deriving Repr, DecidableEq

structure AVCVideoPacket where
  packet_type : AVCPacketType
  composition_time : Int
  avc_data : List Nat
deriving Repr, DecidableEq

/-- `packet_type` (AVC): `be_u8` then `{0,1,2}`, else `Err::Error`. -/
def packet_type (input : List Nat) : PResult AVCPacketType :=
  pbind (be_u8 input) fun t rest =>
    match t with
    | 0 => .complete .SequenceHeader rest
    | 1 => .complete .NALU rest
    | 2 => .complete .EndOfSequence rest
    | _ => .error

/-- `avc_video_packet(input, size)`: guards (`< size` then `size < 4`),
`pair(packet_type, be_i24)`, `avc_data = input[4..size]`,
remainder `input[size..]`. -/
def avc_video_packet (input : List Nat) (size : Nat) : PResult AVCVideoPacket :=
  if input.length < size then .incomplete size
  else if size < 4 then .incomplete 4
  else
    pbind (packet_type input) fun pt r1 =>
    pbind (be_i24 r1) fun composition_time _ =>
      .complete
        { packet_type := pt
          composition_time := composition_time
          avc_data := (input.take size).drop 4 } (input.drop size)

inductive TagData where
  | Audio : AudioData → TagData
  | Video : VideoData → TagData
  | Script : TagData
deriving Repr, DecidableEq

structure Tag where
  header : TagHeader
  data : TagData
deriving Repr, DecidableEq

/-- `tag_data(tag_type, size)`: dispatch on the tag type; a Script tag's
payload is not decoded here and the input is returned unconsumed. -/
def tag_data (tt : TagType) (size : Nat) (input : List Nat) : PResult TagData :=
  match tt with
  | .Video => pmap .Video (video_data input size)
  | .Audio => pmap .Audio (audio_data input size)
  | .Script => .complete .Script input

/-- `complete_tag`: `pair(tag_type, be_u24)` then
`tuple((be_u24, be_u8, be_u24, tag_data(tag_type, data_size)))`. -/
def complete_tag (input : List Nat) : PResult Tag :=
  pbind (tag_type input) fun tt r1 =>
  pbind (be_u24 r1) fun data_size r2 =>
  pbind (be_u24 r2) fun timestamp r3 =>
  pbind (be_u8 r3) fun timestamp_extended r4 =>
  pbind (be_u24 r4) fun stream_id r5 =>
  pmap (fun d =>
    ({ header := { tag_type := tt
                   data_size := data_size
                   timestamp := timestamp_extended * 2 ^ 24 + timestamp
                   stream_id := stream_id }
       data := d } : Tag)) (tag_data tt data_size r5)

structure ScriptDataDate where
  date_time : Nat
  local_date_time_offset : Int
deriving Repr, DecidableEq

/-- `ScriptDataValue`, with `f64` modelled as its 64-bit bit pattern and
`&str` as its UTF-8 byte list.  `ScriptDataObject` (a named value) is
modelled as the pair `(name bytes, value)`. -/
inductive ScriptDataValue : Type where
  | number : Nat → ScriptDataValue
  | boolean : Bool → ScriptDataValue
  | string : List Nat → ScriptDataValue
  | object : List (List Nat × ScriptDataValue) → ScriptDataValue
  | movieClip : List Nat → ScriptDataValue
  | null : ScriptDataValue
  | undefined : ScriptDataValue
  | reference : Nat → ScriptDataValue
  | ecmaArray : List (List Nat × ScriptDataValue) → ScriptDataValue
  | strictArray : List ScriptDataValue → ScriptDataValue
  | date : ScriptDataDate → ScriptDataValue
  | longString : List Nat → ScriptDataValue
deriving Repr

structure ScriptData where
  name : List Nat
  arguments : ScriptDataValue
deriving Repr

/-- `script_data_string`: `map_res(length_data(be_u16), from_utf8)`; a
length-prefixed chunk that is not valid UTF-8 is `Err::Error`. -/
def script_data_string (input : List Nat) : PResult (List Nat) :=
  pbind (be_u16 input) fun len r =>
  pbind (takeBytes len r) fun bytes r2 =>
  if validUtf8 bytes then .complete bytes r2 else .error

/-- `script_data_long_string`: `map_res(length_data(be_u32), from_utf8)`. -/
def script_data_long_string (input : List Nat) : PResult (List Nat) :=
  pbind (be_u32 input) fun len r =>
  pbind (takeBytes len r) fun bytes r2 =>
  if validUtf8 bytes then .complete bytes r2 else .error

/-- `script_data_date`: `pair(be_f64, be_i16)`. -/
def script_data_date (input : List Nat) : PResult ScriptDataDate :=
  pbind (be_f64 input) fun dt r =>
  pmap (fun off => { date_time := dt, local_date_time_offset := off }) (be_i16 r)

/-- `script_data_object_end`: `tag(&[0, 0, 9])`. -/
def script_data_object_end (input : List Nat) : PResult Unit :=
  tagLit [0, 0, 9] input

theorem readBE_complete {k : Nat} {input rem : List Nat} {v : Nat}
    (h : readBE k input = .complete v rem) :
    k ≤ input.length ∧ rem = input.drop k := by
  unfold readBE at h
  split at h
  · exact absurd h (by simp)
  · refine ⟨by omega, ?_⟩
    injection h with h1 h2
    exact h2.symm

theorem be_u32_consumes {input rem : List Nat} {v : Nat}
    (h : be_u32 input = .complete v rem) : rem.length < input.length := by
  obtain ⟨hk, hr⟩ := readBE_complete h
  subst hr
  simp only [List.length_drop]
  omega

theorem takeBytes_complete {k : Nat} {input rem bytes : List Nat}
    (h : takeBytes k input = .complete bytes rem) :
    k ≤ input.length ∧ bytes = input.take k ∧ rem = input.drop k := by
  unfold takeBytes at h
  split at h
  · exact absurd h (by simp)
  · injection h with h1 h2
    exact ⟨by omega, h1.symm, h2.symm⟩

theorem script_data_string_consumes {input s rem : List Nat}
    (h : script_data_string input = .complete s rem) : rem.length < input.length := by
  unfold script_data_string at h
  rcases hu : be_u16 input with ⟨len, r⟩ | n | _ | _ <;>
    rw [hu] at h <;> simp only [pbind] at h <;> try exact absurd h (by simp)
  obtain ⟨h2, hr⟩ := readBE_complete hu
  rcases ht : takeBytes len r with ⟨bytes, r2⟩ | n | _ | _ <;>
    rw [ht] at h <;> simp only [pbind] at h <;> try exact absurd h (by simp)
  obtain ⟨hlen, hb, hr2⟩ := takeBytes_complete ht
  split at h
  · injection h with h1 hrem
    subst hrem hr2 hr
    simp only [List.length_drop]
    omega
  · exact absurd h (by simp)

mutual

/-- `script_data_value`: one type-marker byte, then dispatch per §4.7. -/
def script_data_value (input : List Nat) : PResult ScriptDataValue :=
  match input with
  | [] => .incomplete 1
  | b :: i =>
    match b with
    | 0 => pmap .number (be_f64 i)
    | 1 => pmap (fun n => ScriptDataValue.boolean (n != 0)) (be_u8 i)
    | 2 => pmap .string (script_data_string i)
    | 3 => pmap .object (script_data_objects i)
    | 4 => pmap .movieClip (script_data_string i)
    | 5 => .complete .null i
    | 6 => .complete .undefined i
    | 7 => pmap .reference (be_u16 i)
    | 8 => pmap .ecmaArray (script_data_ecma_array i)
    | 10 => pmap .strictArray (script_data_strict_array i)
    | 11 => pmap .date (script_data_date i)
    | 12 => pmap .longString (script_data_long_string i)
    | _ => .error
termination_by 8 * input.length
decreasing_by all_goals simp_wf; all_goals omega

/-- `script_data_object`: `pair(script_data_string, script_data_value)`. -/
def script_data_object (input : List Nat) : PResult (List Nat × ScriptDataValue) :=
  match h : script_data_string input with
  | .complete name rem => pmap (fun v => (name, v)) (script_data_value rem)
  | .incomplete n => .incomplete n
  | .error => .error
  | .failure => .failure
termination_by 8 * input.length + 1
decreasing_by all_goals simp_wf; all_goals (have hc := script_data_string_consumes h; omega)

/-- The `many0(script_data_object)` loop.  nom's `many0` stops (returning
the accumulated list) when the element parser fails recoverably, propagates
`Incomplete`/`Failure`, and errors out on an element that consumes nothing.
Since every parser's remainder is a suffix of its input, nom's
"consumed nothing" test `i1.input_len() == len` is `¬ rem.length < input.length`. -/
def script_data_objects_loop (input : List Nat) :
    PResult (List (List Nat × ScriptDataValue)) :=
  match script_data_object input with
  | .complete obj rem =>
    if hlt : rem.length < input.length then
      pmap (fun objs => obj :: objs) (script_data_objects_loop rem)
    else .error
  | .incomplete n => .incomplete n
  | .error => .complete [] input
  | .failure => .failure
termination_by 8 * input.length + 2
decreasing_by all_goals simp_wf; all_goals omega

/-- `script_data_objects`: `terminated(many0(script_data_object),
script_data_object_end)`. -/
def script_data_objects (input : List Nat) :
    PResult (List (List Nat × ScriptDataValue)) :=
  pbind (script_data_objects_loop input) fun objs rem =>
    pmap (fun _ => objs) (script_data_object_end rem)
termination_by 8 * input.length + 3
decreasing_by all_goals simp_wf; all_goals omega

/-- `script_data_ecma_array`: `pair(be_u32, script_data_objects)` with the
count discarded. -/
def script_data_ecma_array (input : List Nat) :
    PResult (List (List Nat × ScriptDataValue)) :=
  match h : be_u32 input with
  | .complete _ rem => script_data_objects rem
  | .incomplete n => .incomplete n
  | .error => .error
  | .failure => .failure
termination_by 8 * input.length + 4
decreasing_by all_goals simp_wf; all_goals (have hc := be_u32_consumes h; omega)

/-- `script_data_strict_array`: `flat_map(be_u32, |o| many_m_n(1, o,
script_data_value))`.  nom's `many_m_n` first rejects `min > max` (count 0)
with `Err::Failure`. -/
def script_data_strict_array (input : List Nat) : PResult (List ScriptDataValue) :=
  match h : be_u32 input with
  | .complete o rem => if 1 > o then .failure else strict_values_first o rem
  | .incomplete n => .incomplete n
  | .error => .error
  | .failure => .failure
termination_by 8 * input.length + 4
decreasing_by all_goals simp_wf; all_goals (have hc := be_u32_consumes h; omega)

/-- The `many_m_n(1, max, script_data_value)` loop at iteration count 0:
a recoverable element error here (count < min) is an error of the whole
parser. -/
def strict_values_first (max : Nat) (input : List Nat) :
    PResult (List ScriptDataValue) :=
  match max with
  | 0 => .complete [] input
  | m + 1 =>
    match script_data_value input with
    | .complete v rem =>
      if hlt : rem.length < input.length then
        pmap (fun vs => v :: vs) (strict_values_rest m rem)
      else .error
    | .incomplete n => .incomplete n
    | .error => .error
    | .failure => .failure
termination_by 8 * input.length + 1
decreasing_by all_goals simp_wf; all_goals omega

/-- The `many_m_n(1, max, script_data_value)` loop at iteration count ≥ 1:
a recoverable element error now ends the loop successfully. -/
def strict_values_rest (max : Nat) (input : List Nat) :
    PResult (List ScriptDataValue) :=
  match max with
  | 0 => .complete [] input
  | m + 1 =>
    match script_data_value input with
    | .complete v rem =>
      if hlt : rem.length < input.length then
        pmap (fun vs => v :: vs) (strict_values_rest m rem)
      else .error
    | .incomplete n => .incomplete n
    | .error => .complete [] input
    | .failure => .failure
termination_by 8 * input.length + 1
decreasing_by all_goals simp_wf; all_goals omega

end

/-- `script_data`: the leading byte must be the String marker `2`
(`tag(&[2])`), then a string name and one value. -/
def script_data (input : List Nat) : PResult ScriptData :=
  pbind (tagLit [2] input) fun _ r1 =>
  pbind (script_data_string r1) fun name r2 =>
  pmap (fun args => ({ name := name, arguments := args } : ScriptData))
    (script_data_value r2)

/-! ### Reference encoder for the metadata value grammar

Used to state round-trip properties (order preservation, exact values):
`encodeValue` produces the wire form of a metadata value per §4.7 / §6 of
the format, and `validValue` captures the side conditions under which a
value is representable at all (string lengths fit their prefixes, counts
fit in `u32`, strict arrays are non-empty, UTF-8 validity). -/

/-- Big-endian byte string of width `k` for the value `n` (low `8k` bits). -/
def beBytes : Nat → Nat → List Nat
  | 0, _ => []
  | k + 1, n => beBytes k (n / 256) ++ [n % 256]

/-- Two's-complement 16-bit wire form of a small signed integer. -/
def unsigned16 (i : Int) : Nat := (i % 65536).toNat

mutual

def encodeValue : ScriptDataValue → List Nat
  | .number bits => 0 :: beBytes 8 bits
  | .boolean b => [1, if b then 1 else 0]
  | .string s => 2 :: (beBytes 2 s.length ++ s)
  | .object objs => 3 :: (encodeObjs objs ++ [0, 0, 9])
  | .movieClip s => 4 :: (beBytes 2 s.length ++ s)
  | .null => [5]
  | .undefined => [6]
  | .reference r => 7 :: beBytes 2 r
  | .ecmaArray objs => 8 :: (beBytes 4 objs.length ++ encodeObjs objs ++ [0, 0, 9])
  | .strictArray vs => 10 :: (beBytes 4 vs.length ++ encodeValues vs)
  | .date d => 11 :: (beBytes 8 d.date_time ++ beBytes 2 (unsigned16 d.local_date_time_offset))
  | .longString s => 12 :: (beBytes 4 s.length ++ s)

def encodePair : List Nat × ScriptDataValue → List Nat
  | (name, v) => beBytes 2 name.length ++ name ++ encodeValue v

def encodeObjs : List (List Nat × ScriptDataValue) → List Nat
  | [] => []
  | p :: rest => encodePair p ++ encodeObjs rest

def encodeValues : List ScriptDataValue → List Nat
  | [] => []
  | v :: rest => encodeValue v ++ encodeValues rest

end

/-- A length-prefixed (`u16`) UTF-8 string that can be encoded. -/
def validStr (s : List Nat) : Bool :=
  validUtf8 s && decide (s.length < 2 ^ 16)

mutual

def validValue : ScriptDataValue → Bool
  | .number bits => decide (bits < 2 ^ 64)
  | .boolean _ => true
  | .string s => validStr s
  | .object objs => validObjs objs
  | .movieClip s => validStr s
  | .null => true
  | .undefined => true
  | .reference r => decide (r < 2 ^ 16)
  | .ecmaArray objs => validObjs objs
  | .strictArray vs =>
      decide (vs.length ≠ 0) && decide (vs.length < 2 ^ 32) && validValues vs
  | .date d =>
      decide (d.date_time < 2 ^ 64) &&
      decide (-(2 ^ 15) ≤ d.local_date_time_offset) &&
      decide (d.local_date_time_offset < 2 ^ 15)
  | .longString s => validUtf8 s && decide (s.length < 2 ^ 32)

def validObjs : List (List Nat × ScriptDataValue) → Bool
  | [] => true
  | (name, v) :: rest => validStr name && validValue v && validObjs rest

def validValues : List ScriptDataValue → Bool
  | [] => true
  | v :: rest => validValue v && validValues rest

end

/-! Structural size measures used to induct over metadata values. -/
mutual

def valueSize : ScriptDataValue → Nat
  | .object objs => pairsSize objs + 1
  | .ecmaArray objs => pairsSize objs + 1
  | .strictArray vs => valuesSize vs + 1
  | _ => 1

def pairsSize : List (List Nat × ScriptDataValue) → Nat
  | [] => 0
  | (_, v) :: rest => valueSize v + pairsSize rest + 1

def valuesSize : List ScriptDataValue → Nat
  | [] => 0
  | v :: rest => valueSize v + valuesSize rest + 1

end

/-! ### Helper lemmas -/

theorem pmap_pmap {α β γ : Type} (f : β → γ) (g : α → β) (r : PResult α) :
    pmap f (pmap g r) = pmap (fun x => f (g x)) r := by
  cases r <;> rfl

theorem pmap_congr {α β : Type} {f g : α → β} (r : PResult α)
    (h : ∀ x, f x = g x) : pmap f r = pmap g r := by
  cases r <;> simp [pmap, h]

theorem beBytes_length (k n : Nat) : (beBytes k n).length = k := by
  induction k generalizing n with
  | zero => rfl
  | succ k ih => simp [beBytes, ih]

theorem beVal_append_singleton (l : List Nat) (b : Nat) :
    beVal (l ++ [b]) = beVal l * 256 + b := by
  simp [beVal, List.foldl_append]

theorem beVal_beBytes (k n : Nat) (h : n < 256 ^ k) : beVal (beBytes k n) = n := by
  induction k generalizing n with
  | zero =>
    simp only [Nat.pow_zero, Nat.lt_one_iff] at h
    simp [beBytes, beVal, h]
  | succ k ih =>
    have hdiv : n / 256 < 256 ^ k := by
      rw [Nat.div_lt_iff_lt_mul (by omega)]
      calc n < 256 ^ (k + 1) := h
        _ = 256 ^ k * 256 := by ring
    rw [beBytes, beVal_append_singleton, ih _ hdiv]
    omega

theorem readBE_append (B tail : List Nat) :
    readBE B.length (B ++ tail) = .complete (beVal B) tail := by
  unfold readBE
  rw [if_neg (by simp), List.take_left, List.drop_left]

theorem readBE_beBytes (k n : Nat) (tail : List Nat) (h : n < 256 ^ k) :
    readBE k (beBytes k n ++ tail) = .complete n tail := by
  have hr := readBE_append (beBytes k n) tail
  rw [beBytes_length, beVal_beBytes k n h] at hr
  exact hr

theorem takeBytes_exact (s tail : List Nat) :
    takeBytes s.length (s ++ tail) = .complete s tail := by
  unfold takeBytes
  rw [if_neg (by simp), List.take_left, List.drop_left]

theorem tagLit_self (t rest : List Nat) : tagLit t (t ++ rest) = .complete () rest := by
  induction t with
  | nil => rfl
  | cons a t ih => simp [tagLit, ih]

theorem readBE_two (a b : Nat) (rest : List Nat) :
    readBE 2 (a :: b :: rest) = .complete (a * 256 + b) rest := by
  unfold readBE
  rw [if_neg (by simp)]
  simp [beVal, List.foldl]

theorem readBE_three (a b c : Nat) (rest : List Nat) :
    readBE 3 (a :: b :: c :: rest) = .complete ((a * 256 + b) * 256 + c) rest := by
  unfold readBE
  rw [if_neg (by simp)]
  simp [beVal, List.foldl]

theorem readBE_four (a b c d : Nat) (rest : List Nat) :
    readBE 4 (a :: b :: c :: d :: rest) =
      .complete (((a * 256 + b) * 256 + c) * 256 + d) rest := by
  unfold readBE
  rw [if_neg (by simp)]
  simp [beVal, List.foldl]

theorem script_data_string_encode (s tail : List Nat)
    (hu : validUtf8 s = true) (hlen : s.length < 2 ^ 16) :
    script_data_string (beBytes 2 s.length ++ (s ++ tail)) = .complete s tail := by
  unfold script_data_string be_u16
  rw [readBE_beBytes 2 s.length (s ++ tail) (by norm_num at hlen ⊢; omega)]
  simp only [pbind, takeBytes_exact, hu, if_true]

theorem beq_decide (a b : Nat) : (a == b) = decide (a = b) := by
  by_cases h : a = b <;> simp [h]

theorem and_two_pow_beq (fl k : Nat) :
    (fl &&& 2 ^ k == 2 ^ k) = fl.testBit k := by
  have h2 : (0 : Nat) < 2 ^ k := pow_pos (by norm_num) k
  rw [Nat.and_two_pow]
  cases h : fl.testBit k <;> simp <;> omega

/-! ### Claim C1 -/

/-- C1 counterexample: with a declared size below the mandatory minimum, the
payload decoders return `Incomplete`, not a hard failure; in particular an
audio tag with `data_size = 0` requests more bytes. -/
theorem c1_counterexample :
    audio_data [] 0 = .incomplete 1 ∧
    video_data [] 0 = .incomplete 1 ∧
    aac_audio_packet [] 0 = .incomplete 1 ∧
    avc_video_packet [0, 0, 0] 3 = .incomplete 4 ∧
    complete_tag [8, 0, 0, 0, 0, 0, 0, 0, 0, 0, 0] = .incomplete 1 := by
  refine ⟨rfl, rfl, rfl, ?_, rfl⟩
  decide

/-- C1 (amended): for every input holding at least `size` bytes and every
declared size below the mandatory minimum (`size < 1` for `audio_data`,
`video_data` and `aac_audio_packet`, `size < 4` for `avc_video_packet`),
the decoder returns `Incomplete` — declaring the minimum 1 (resp. 4) — and
not a hard parse failure; an audio or video tag with `data_size = 0`
requests more bytes rather than failing. -/
theorem c1_small_size_incomplete (input : List Nat) (size : Nat)
    (hlen : size ≤ input.length) :
    (size < 1 →
      audio_data input size = .incomplete 1 ∧
      video_data input size = .incomplete 1 ∧
      aac_audio_packet input size = .incomplete 1) ∧
    (size < 4 → avc_video_packet input size = .incomplete 4) := by
  constructor
  · intro h
    refine ⟨?_, ?_, ?_⟩ <;>
      simp [audio_data, video_data, aac_audio_packet, show ¬input.length < size by omega, h]
  · intro h
    simp [avc_video_packet, show ¬input.length < size by omega, h]

/-- C1 witness: the amended statement at `input = [0,0,0]`, `size = 3`. -/
theorem c1_witness : avc_video_packet [0, 0, 0] 3 = .incomplete 4 :=
  (c1_small_size_incomplete [0, 0, 0] 3 (by decide)).2 (by decide)

/-! ### Claim C5 -/

/-- C5 counterexample: the leading byte `0x20 = 0b0010_0000` has format
nibble `0b0010`, which decodes to `MP3` (code 2), not `ADPCM` (code 1), and
to 5.5 kHz / 8-bit, not 22 kHz / 16-bit. -/
theorem c5_counterexample :
    audio_data [0x20] 1 =
      .complete
        { sound_format := .MP3
          sound_rate := ._5_5KHZ
          sound_size := .Snd8bit
          sound_type := .SndMono
          sound_data := [] } [] ∧
    SoundFormat.MP3 ≠ SoundFormat.ADPCM := by
  constructor
  · rfl
  · decide

/-- C5 (amended): for every audio payload whose leading byte unpacks
most-significant-bit-first as 4-bit format `0b0001` (ADPCM), 2-bit rate
`0b10` (22 kHz), size bit 1 (16-bit) and channel bit 0 (mono) — e.g.
`0b0001_1010` — the decoder returns `sound_format = ADPCM`,
`sound_rate = _22KHZ`, `sound_size = Snd16bit`, `sound_type = SndMono`,
and `sound_data` is the payload after byte 0 with length `size − 1`. -/
theorem c5_audio_bits (b : Nat) (rest : List Nat) (size : Nat)
    (hfmt : b / 16 = 1) (hrate : b / 4 % 4 = 2) (hsz : b / 2 % 2 = 1)
    (hty : b % 2 = 0) (hsize : 1 ≤ size) (hlen : size ≤ rest.length + 1) :
    audio_data (b :: rest) size =
      .complete
        { sound_format := .ADPCM
          sound_rate := ._22KHZ
          sound_size := .Snd16bit
          sound_type := .SndMono
          sound_data := rest.take (size - 1) } ((b :: rest).drop size) ∧
    (rest.take (size - 1)).length = size - 1 := by
  constructor
  · have hnlt : ¬(b :: rest).length < size := by simp; omega
    have htk : (b :: rest).take size = b :: rest.take (size - 1) := by
      obtain ⟨m, rfl⟩ : ∃ m, size = m + 1 := ⟨size - 1, by omega⟩
      simp
    simp [audio_data, hnlt, show ¬size < 1 by omega, hfmt, hrate, hsz, hty,
      soundFormatOfCode, soundRateOfCode, htk]
    omega
  · simp
    omega

/-- C5 witness: the amended statement at byte `0x1A`, payload `[7]`,
`size = 2`. -/
theorem c5_witness :
    audio_data [0x1A, 7] 2 =
      .complete
        { sound_format := .ADPCM
          sound_rate := ._22KHZ
          sound_size := .Snd16bit
          sound_type := .SndMono
          sound_data := [7] } [] :=
  (c5_audio_bits 0x1A [7] 2 (by decide) (by decide) (by decide) (by decide)
    (by decide) (by decide)).1

/-! ### Claim C8 -/

/-- C8: for every input starting with the signature `FLV` followed by at
least 6 more bytes, the header decoder returns `version` equal to byte 3,
`audio` true iff bit 2 of the flags byte is set, `video` true iff bit 0 is
set, and `offset` equal to the big-endian `u32` of bytes 5–8; in particular
`"FLV" 0x01 0x05 0x00000009` decodes to
`version = 1, audio = true, video = true, offset = 9` with empty
remainder. -/
theorem c8_header :
    (∀ (v fl o1 o2 o3 o4 : Nat) (rest : List Nat),
      header (0x46 :: 0x4C :: 0x56 :: v :: fl :: o1 :: o2 :: o3 :: o4 :: rest) =
        .complete
          { version := v
            audio := fl.testBit 2
            video := fl.testBit 0
            offset := ((o1 * 256 + o2) * 256 + o3) * 256 + o4 } rest) ∧
    header [0x46, 0x4C, 0x56, 1, 5, 0, 0, 0, 9] =
      .complete { version := 1, audio := true, video := true, offset := 9 } [] := by
  constructor
  · intro v fl o1 o2 o3 o4 rest
    have h4 : decide (fl &&& 4 = 4) = fl.testBit 2 := by
      have h := and_two_pow_beq fl 2
      rw [beq_decide] at h
      exact h
    have h1 : decide (fl &&& 1 = 1) = fl.testBit 0 := by
      have h := and_two_pow_beq fl 0
      rw [beq_decide] at h
      exact h
    simp [header, tagLit, be_u8, be_u32, pbind, pmap, readBE_four, beq_decide, h4, h1]
  · rfl

/-! ### Claim C9 -/

/-- C9: `script_data` hard-fails (`Err::Error`) whenever the first byte is
present but is not the String type marker 2; when it is 2, it decodes a
`u16`-length-prefixed UTF-8 name followed by one metadata value. -/
theorem c9_script_data_marker :
    (∀ (b : Nat) (rest : List Nat), b ≠ 2 → script_data (b :: rest) = .error) ∧
    (∀ (rest name r2 : List Nat) (v : ScriptDataValue) (r3 : List Nat),
      script_data_string rest = .complete name r2 →
      script_data_value r2 = .complete v r3 →
      script_data (2 :: rest) = .complete { name := name, arguments := v } r3) := by
  constructor
  · intro b rest hb
    simp [script_data, tagLit, pbind, hb]
  · intro rest name r2 v r3 h1 h2
    simp [script_data, tagLit, pbind, pmap, h1, h2]

/-- C9 witness: marker 0 hard-fails; marker 2 with name `""` and a Null
value decodes. -/
theorem c9_witness :
    script_data [0] = .error ∧
    script_data [2, 0, 0, 5] =
      .complete { name := [], arguments := .null } [] := by
  refine ⟨c9_script_data_marker.1 0 [] (by decide), ?_⟩
  refine c9_script_data_marker.2 [0, 0, 5] [] [5] .null [] (by decide) ?_
  simp [script_data_value]

/-! ### Claim C10 -/

/-- C10: on inputs shorter than the 3-byte signature the header decoder is
`Incomplete` — reporting the number of missing signature bytes — exactly
when the bytes present match the corresponding prefix of `"FLV"`; any
present byte that differs from the signature is a hard failure immediately,
before the remaining signature (or header) bytes arrive. -/
theorem c10_header_signature_early :
    header [] = .incomplete 3 ∧
    header [0x46] = .incomplete 2 ∧
    header [0x46, 0x4C] = .incomplete 1 ∧
    (∀ (b : Nat) (rest : List Nat), b ≠ 0x46 → header (b :: rest) = .error) ∧
    (∀ (c : Nat) (rest : List Nat), c ≠ 0x4C → header (0x46 :: c :: rest) = .error) ∧
    (∀ (d : Nat) (rest : List Nat), d ≠ 0x56 →
      header (0x46 :: 0x4C :: d :: rest) = .error) := by
  refine ⟨rfl, rfl, rfl, ?_, ?_, ?_⟩ <;>
    intro x rest hx <;> simp [header, tagLit, pbind, hx]

/-- C10 witness: a wrong first or second byte fails even on a 1- or 2-byte
input. -/
theorem c10_witness : header [9] = .error ∧ header [0x46, 9] = .error :=
  ⟨c10_header_signature_early.2.2.2.1 9 [] (by decide),
   c10_header_signature_early.2.2.2.2.1 9 [] (by decide)⟩

/-! ### Inversion lemmas for the tag assembler -/

theorem pbind_complete_inv {α β : Type} {r : PResult α}
    {f : α → List Nat → PResult β} {v : β} {rem : List Nat}
    (h : pbind r f = .complete v rem) :
    ∃ v1 rem1, r = .complete v1 rem1 ∧ f v1 rem1 = .complete v rem := by
  cases r with
  | complete v1 rem1 => exact ⟨v1, rem1, rfl, h⟩
  | incomplete n => exact absurd h (by simp [pbind])
  | error => exact absurd h (by simp [pbind])
  | failure => exact absurd h (by simp [pbind])

theorem pmap_complete_inv {α β : Type} {f : α → β} {r : PResult α}
    {v : β} {rem : List Nat} (h : pmap f r = .complete v rem) :
    ∃ v1, r = .complete v1 rem ∧ v = f v1 := by
  cases r with
  | complete v1 rem1 =>
    simp only [pmap, PResult.complete.injEq] at h
    exact ⟨v1, by rw [h.2], h.1.symm⟩
  | incomplete n => exact absurd h (by simp [pmap])
  | error => exact absurd h (by simp [pmap])
  | failure => exact absurd h (by simp [pmap])

theorem be_u8_complete_inv {input rem : List Nat} {v : Nat}
    (h : be_u8 input = .complete v rem) : input = v :: rem := by
  cases input with
  | nil => exact absurd h (by simp [be_u8])
  | cons b r =>
    simp only [be_u8, PResult.complete.injEq] at h
    rw [h.1, h.2]

theorem tag_type_complete_inv {input rem : List Nat} {tt : TagType}
    (h : tag_type input = .complete tt rem) : rem = input.drop 1 := by
  obtain ⟨b, r1, hb, hm⟩ := pbind_complete_inv h
  have hin := be_u8_complete_inv hb
  subst hin
  split at hm <;> simp_all

theorem audio_data_rem {input rem : List Nat} {size : Nat} {a : AudioData}
    (h : audio_data input size = .complete a rem) : rem = input.drop size := by
  unfold audio_data at h
  split at h
  · exact absurd h (by simp)
  · split at h
    · exact absurd h (by simp)
    · split at h
      · exact absurd h (by simp)
      · split at h
        · exact absurd h (by simp)
        · split at h
          · exact absurd h (by simp)
          · simp only [PResult.complete.injEq] at h
            exact h.2.symm

theorem video_data_rem {input rem : List Nat} {size : Nat} {a : VideoData}
    (h : video_data input size = .complete a rem) : rem = input.drop size := by
  unfold video_data at h
  split at h
  · exact absurd h (by simp)
  · split at h
    · exact absurd h (by simp)
    · split at h
      · exact absurd h (by simp)
      · split at h
        · exact absurd h (by simp)
        · split at h
          · exact absurd h (by simp)
          · simp only [PResult.complete.injEq] at h
            exact h.2.symm

/-! ### Claim C2 -/

/-- C2 counterexample: a Script tag with `data_size = 1` and one payload
byte: `complete_tag` succeeds after consuming only the 11 header bytes,
returning the payload byte `0xAB` as unconsumed remainder — not the empty
remainder at offset `11 + data_size = 12` that the claim requires. -/
theorem c2_counterexample :
    complete_tag [18, 0, 0, 1, 0, 0, 0, 0, 0, 0, 0, 0xAB] =
      .complete
        { header := { tag_type := .Script, data_size := 1, timestamp := 0, stream_id := 0 }
          data := .Script } [0xAB] ∧
    ([0xAB] : List Nat) ≠ ([18, 0, 0, 1, 0, 0, 0, 0, 0, 0, 0, 0xAB] : List Nat).drop 12 := by
  constructor
  · rfl
  · decide

/-- C2 (amended): when `complete_tag` succeeds on an Audio or Video tag it
consumes exactly `11 + data_size` bytes, the remainder starting at offset
`11 + data_size` of the input; for a Script tag only the 11 header bytes
are consumed and the remainder starts at offset 11, with the script payload
left unconsumed. -/
theorem c2_tag_consumption (bs : List Nat) (t : Tag) (rem : List Nat)
    (h : complete_tag bs = .complete t rem) :
    (t.header.tag_type = .Audio ∨ t.header.tag_type = .Video →
      rem = bs.drop (11 + t.header.data_size)) ∧
    (t.header.tag_type = .Script → rem = bs.drop 11) := by
  unfold complete_tag at h
  obtain ⟨tt, r1, h1, h⟩ := pbind_complete_inv h
  obtain ⟨ds, r2, h2, h⟩ := pbind_complete_inv h
  obtain ⟨ts, r3, h3, h⟩ := pbind_complete_inv h
  obtain ⟨te, r4, h4, h⟩ := pbind_complete_inv h
  obtain ⟨sid, r5, h5, h⟩ := pbind_complete_inv h
  obtain ⟨d, hd, hv⟩ := pmap_complete_inv h
  have hr1 : r1 = bs.drop 1 := tag_type_complete_inv h1
  have hr2 : r2 = r1.drop 3 := (readBE_complete h2).2
  have hr3 : r3 = r2.drop 3 := (readBE_complete h3).2
  have hr4 : r4 = r3.drop 1 := be_u8_complete_inv h4 ▸ rfl
  have hr5 : r5 = r4.drop 3 := (readBE_complete h5).2
  have hr5' : r5 = bs.drop 11 := by
    subst hr5 hr4 hr3 hr2 hr1
    simp [List.drop_drop]
  have htt : t.header.tag_type = tt := by rw [hv]
  have hds : t.header.data_size = ds := by rw [hv]
  rw [htt, hds]
  constructor
  · intro hav
    have : rem = r5.drop ds := by
      rcases hav with hA | hV
      · subst hA
        simp only [tag_data] at hd
        obtain ⟨a, ha, _⟩ := pmap_complete_inv hd
        exact audio_data_rem ha
      · subst hV
        simp only [tag_data] at hd
        obtain ⟨a, ha, _⟩ := pmap_complete_inv hd
        exact video_data_rem ha
    rw [this, hr5', List.drop_drop, Nat.add_comm]
  · intro hS
    subst hS
    simp only [tag_data, PResult.complete.injEq] at hd
    rw [← hd.2, hr5']

/-- C2 witness: the amended statement at a concrete 13-byte Audio tag with
`data_size = 1`. -/
theorem c2_witness :
    ([99] : List Nat) =
      ([8, 0, 0, 1, 0, 0, 0, 0, 0, 0, 0, 26, 99] : List Nat).drop (11 + 1) := by
  have h := (c2_tag_consumption [8, 0, 0, 1, 0, 0, 0, 0, 0, 0, 0, 26, 99]
    { header := { tag_type := .Audio, data_size := 1, timestamp := 0, stream_id := 0 }
      data := .Audio
        { sound_format := .ADPCM
          sound_rate := ._22KHZ
          sound_size := .Snd16bit
          sound_type := .SndMono
          sound_data := [] } } [99] (by decide)).1 (Or.inl rfl)
  exact h

/-! ### Claim C4 -/

theorem readBE_three_inv {input rem : List Nat} {v : Nat}
    (h : readBE 3 input = .complete v rem) :
    ∃ a b c, input = a :: b :: c :: rem := by
  rcases input with _ | ⟨a, _ | ⟨b, _ | ⟨c, r⟩⟩⟩
  · exact absurd h (by simp [readBE])
  · exact absurd h (by simp [readBE])
  · exact absurd h (by simp [readBE])
  · obtain ⟨-, hr⟩ := readBE_complete h
    refine ⟨a, b, c, ?_⟩
    rw [hr]
    simp

theorem audio_data_facts {input rem : List Nat} {size : Nat} {a : AudioData}
    (h : audio_data input size = .complete a rem) :
    size ≤ input.length ∧ 1 ≤ size ∧ rem = input.drop size := by
  have hrem := audio_data_rem h
  unfold audio_data at h
  split at h
  · exact absurd h (by simp)
  · split at h
    · exact absurd h (by simp)
    · exact ⟨by omega, by omega, hrem⟩

theorem video_data_facts {input rem : List Nat} {size : Nat} {a : VideoData}
    (h : video_data input size = .complete a rem) :
    size ≤ input.length ∧ 1 ≤ size ∧ rem = input.drop size := by
  have hrem := video_data_rem h
  unfold video_data at h
  split at h
  · exact absurd h (by simp)
  · split at h
    · exact absurd h (by simp)
    · exact ⟨by omega, by omega, hrem⟩

set_option maxHeartbeats 3200000 in
/-- Evaluating `complete_tag` on any strict prefix of the 11-byte tag
header: some field reader runs out of bytes and reports `Incomplete`. -/
theorem complete_tag_take_short (b c1 c2 c3 c4 c5 c6 c7 c8 c9 c10 : Nat)
    (payload : List Nat) (hb : b = 8 ∨ b = 9 ∨ b = 18) (n : Nat) (hn : n < 11) :
    ∃ k, 0 < k ∧
      complete_tag
        ((b :: c1 :: c2 :: c3 :: c4 :: c5 :: c6 :: c7 :: c8 :: c9 :: c10 ::
          payload).take n) = .incomplete k := by
  rcases hb with rfl | rfl | rfl <;> interval_cases n <;>
    first
      | (refine ⟨1, ?_, ?_⟩ <;>
          first
            | omega
            | (simp [complete_tag, tag_type, be_u8, be_u24, readBE, pbind, pmap]; done))
      | (refine ⟨2, ?_, ?_⟩ <;>
          first
            | omega
            | (simp [complete_tag, tag_type, be_u8, be_u24, readBE, pbind, pmap]; done))
      | (refine ⟨3, ?_, ?_⟩ <;>
          first
            | omega
            | (simp [complete_tag, tag_type, be_u8, be_u24, readBE, pbind, pmap]; done))

/-- C4 counterexample: `tag_header` on the empty input reports that it
needs 1 byte (nom's `be_u8`), not the 11 bytes the claim requires; the
declared need is below the true requirement. -/
theorem c4_counterexample :
    tag_header [] = .incomplete 1 ∧ (1 : Nat) ≠ 11 := ⟨rfl, by decide⟩

/-- C4 (amended): for every byte sequence that `complete_tag` decodes fully
(empty remainder), decoding any strict prefix returns `Incomplete` with
some positive declared need — which may be smaller than the number of bytes
actually missing, since each field reader reports only its own shortfall —
and re-decoding the full byte sequence succeeds with the same result as
decoding it directly (the decoder is a pure function of its input). -/
theorem c4_truncation_incomplete (bs : List Nat) (t : Tag)
    (h : complete_tag bs = .complete t []) :
    (∀ n, n < bs.length →
      ∃ k, 0 < k ∧ complete_tag (bs.take n) = .incomplete k) ∧
    complete_tag (bs.take bs.length ++ bs.drop bs.length) = .complete t [] := by
  refine ⟨?_, by rw [List.take_append_drop]; exact h⟩
  unfold complete_tag at h
  obtain ⟨tt, r1, h1, h⟩ := pbind_complete_inv h
  obtain ⟨ds, r2, h2, h⟩ := pbind_complete_inv h
  obtain ⟨ts, r3, h3, h⟩ := pbind_complete_inv h
  obtain ⟨te, r4, h4, h⟩ := pbind_complete_inv h
  obtain ⟨sid, r5, h5, h⟩ := pbind_complete_inv h
  obtain ⟨d, hd, hv⟩ := pmap_complete_inv h
  obtain ⟨b, rr1, hbs, hm⟩ := pbind_complete_inv h1
  have hbs' := be_u8_complete_inv hbs
  obtain ⟨c1, c2, c3, hr1⟩ := readBE_three_inv h2
  obtain ⟨c4', c5', c6', hr2⟩ := readBE_three_inv h3
  have hr3 := be_u8_complete_inv h4
  obtain ⟨c8', c9', c10', hr4⟩ := readBE_three_inv h5
  -- assemble the 11 explicit header bytes
  have hrr1 : rr1 = r1 := by
    split at hm <;> simp_all
  subst hrr1
  rw [hr4] at hr3
  rw [hr3] at hr2
  rw [hr2] at hr1
  rw [hr1] at hbs'
  subst hbs'
  -- the tag-type byte is one of the three codes
  have hb : b = 8 ∨ b = 9 ∨ b = 18 := by
    split at hm <;> simp_all
  have htt : (b = 8 → tt = .Audio) ∧ (b = 9 → tt = .Video) ∧
      (b = 18 → tt = .Script) := by
    split at hm <;> simp_all
  intro n hn
  by_cases hn11 : n < 11
  · exact complete_tag_take_short b c1 c2 c3 c4' c5' c6' te c8' c9' c10' r5 hb n hn11
  · -- n ≥ 11: the header parses, and the payload is too short for `size`
    obtain ⟨m, rfl⟩ : ∃ m, n = m + 11 := ⟨n - 11, by omega⟩
    have hlen : (b :: c1 :: c2 :: c3 :: c4' :: c5' :: c6' :: te :: c8' :: c9' ::
        c10' :: r5).length = r5.length + 11 := by simp
    have hm' : m < r5.length := by omega
    -- the Script case has an empty payload, contradicting n < bs.length
    rcases hb with rfl | rfl | rfl
    · -- Audio
      have httA : tt = .Audio := htt.1 rfl
      subst httA
      simp only [tag_data] at hd
      obtain ⟨a, ha, -⟩ := pmap_complete_inv hd
      obtain ⟨hsz, hsz1, hdrop⟩ := audio_data_facts ha
      have hr5ds : r5.length = ds := by
        have : r5.length ≤ ds := by
          have := congrArg List.length hdrop.symm
          simp at this
          omega
        omega
      refine ⟨ds, by omega, ?_⟩
      have hds : ds = (c1 * 256 + c2) * 256 + c3 := by
        rw [hr1] at h2
        unfold be_u24 at h2
        rw [readBE_three] at h2
        injection h2 with hv hr
        exact hv.symm
      subst hds
      have hcond : m < (c1 * 256 + c2) * 256 + c3 ∨
          r5.length < (c1 * 256 + c2) * 256 + c3 := Or.inl (by omega)
      simp [List.take_succ_cons, complete_tag, tag_type, be_u8, be_u24,
        readBE_three, pbind, pmap, tag_data, audio_data, hcond]
    · -- Video
      have httV : tt = .Video := htt.2.1 rfl
      subst httV
      simp only [tag_data] at hd
      obtain ⟨a, ha, -⟩ := pmap_complete_inv hd
      obtain ⟨hsz, hsz1, hdrop⟩ := video_data_facts ha
      have hr5ds : r5.length = ds := by
        have : r5.length ≤ ds := by
          have := congrArg List.length hdrop.symm
          simp at this
          omega
        omega
      refine ⟨ds, by omega, ?_⟩
      have hds : ds = (c1 * 256 + c2) * 256 + c3 := by
        rw [hr1] at h2
        unfold be_u24 at h2
        rw [readBE_three] at h2
        injection h2 with hv hr
        exact hv.symm
      subst hds
      have hcond : m < (c1 * 256 + c2) * 256 + c3 ∨
          r5.length < (c1 * 256 + c2) * 256 + c3 := Or.inl (by omega)
      simp [List.take_succ_cons, complete_tag, tag_type, be_u8, be_u24,
        readBE_three, pbind, pmap, tag_data, video_data, hcond]
    · -- Script: payload is returned unconsumed, so the remainder [] forces
      -- r5 = [] and no n with 11 ≤ n < bs.length exists
      have httS : tt = .Script := htt.2.2 rfl
      subst httS
      simp only [tag_data, PResult.complete.injEq] at hd
      have : r5 = [] := hd.2
      subst this
      simp only [List.length_cons, List.length_nil] at hn
      omega

/-- C4 witness: the amended statement applied to a concrete complete Audio
tag, truncated to its first 5 bytes. -/
theorem c4_witness :
    ∃ k, 0 < k ∧
      complete_tag (([8, 0, 0, 1, 0, 0, 0, 0, 0, 0, 0, 26] : List Nat).take 5) =
        .incomplete k :=
  (c4_truncation_incomplete [8, 0, 0, 1, 0, 0, 0, 0, 0, 0, 0, 26]
    { header := { tag_type := .Audio, data_size := 1, timestamp := 0, stream_id := 0 }
      data := .Audio
        { sound_format := .ADPCM
          sound_rate := ._22KHZ
          sound_size := .Snd16bit
          sound_type := .SndMono
          sound_data := [] } } (by decide)).1 5 (by decide)

/-! ### Metadata grammar: terminator and encoder lemmas -/

theorem pmap_id {α : Type} (r : PResult α) : pmap (fun x => x) r = r := by
  cases r <;> rfl

theorem script_data_value_nine (tail : List Nat) :
    script_data_value (9 :: tail) = .error := by
  rw [script_data_value.eq_def]

theorem script_data_string_term (tail : List Nat) :
    script_data_string (0 :: 0 :: 9 :: tail) = .complete [] (9 :: tail) := by
  unfold script_data_string be_u16
  rw [readBE_two]
  norm_num
  simp only [pbind]
  rw [show takeBytes 0 (9 :: tail) = .complete [] (9 :: tail) from
    takeBytes_exact [] (9 :: tail)]
  simp only [pbind]
  rfl

theorem script_data_object_term (tail : List Nat) :
    script_data_object (0 :: 0 :: 9 :: tail) = .error := by
  rw [script_data_object.eq_def, script_data_string_term]
  simp only [script_data_value_nine, pmap]

theorem script_data_objects_loop_term (tail : List Nat) :
    script_data_objects_loop (0 :: 0 :: 9 :: tail) = .complete [] (0 :: 0 :: 9 :: tail) := by
  rw [script_data_objects_loop.eq_def, script_data_object_term]

theorem script_data_object_nil : script_data_object [] = .incomplete 2 := by
  rw [script_data_object.eq_def]
  have : script_data_string [] = .incomplete 2 := by
    unfold script_data_string be_u16 readBE
    simp [pbind]
  rw [this]

theorem script_data_objects_loop_nil :
    script_data_objects_loop [] = .incomplete 2 := by
  rw [script_data_objects_loop.eq_def, script_data_object_nil]

theorem encodeValue_ne_nil (v : ScriptDataValue) : encodeValue v ≠ [] := by
  cases v <;> simp [encodeValue]

theorem encodePair_length (name : List Nat) (v : ScriptDataValue) :
    (encodePair (name, v)).length = 2 + name.length + (encodeValue v).length := by
  simp [encodePair, beBytes_length]
  omega

theorem validStr_spec {s : List Nat} (h : validStr s = true) :
    validUtf8 s = true ∧ s.length < 2 ^ 16 := by
  simp [validStr] at h
  exact h

theorem pow_16 : (2 : Nat) ^ 16 = 256 ^ 2 := by norm_num
theorem pow_32 : (2 : Nat) ^ 32 = 256 ^ 4 := by norm_num
theorem pow_64 : (2 : Nat) ^ 64 = 256 ^ 8 := by norm_num

theorem unsigned16_lt (i : Int) : unsigned16 i < 256 ^ 2 := by
  unfold unsigned16
  norm_num
  omega

theorem signed_unsigned16 (i : Int) (h1 : -(2 ^ 15) ≤ i) (h2 : i < 2 ^ 15) :
    signed 16 (unsigned16 i) = i := by
  unfold signed unsigned16
  norm_num
  split <;> omega

theorem script_data_string_encodePair (name : List Nat) (v : ScriptDataValue)
    (hstr : validStr name = true) (X : List Nat) :
    script_data_string (encodePair (name, v) ++ X) =
      .complete name (encodeValue v ++ X) := by
  obtain ⟨hu, hl⟩ := validStr_spec hstr
  have h := script_data_string_encode name (encodeValue v ++ X) hu hl
  rw [encodePair]
  rw [List.append_assoc, List.append_assoc]
  exact h

theorem script_data_long_string_encode (s tail : List Nat)
    (hu : validUtf8 s = true) (hlen : s.length < 2 ^ 32) :
    script_data_long_string (beBytes 4 s.length ++ (s ++ tail)) = .complete s tail := by
  unfold script_data_long_string be_u32
  rw [readBE_beBytes 4 s.length (s ++ tail) (by rw [← pow_32]; exact hlen)]
  simp only [pbind, takeBytes_exact, hu, if_true]

theorem script_data_object_encode (name : List Nat) (v : ScriptDataValue)
    (hstr : validStr name = true)
    (hval : ∀ t, script_data_value (encodeValue v ++ t) = .complete v t)
    (X : List Nat) :
    script_data_object (encodePair (name, v) ++ X) = .complete (name, v) X := by
  rw [script_data_object.eq_def, script_data_string_encodePair name v hstr X]
  simp only [hval, pmap]


/-! ### Round trip: decoding an encoded metadata value -/

theorem one_le_valueSize (v : ScriptDataValue) : 1 ≤ valueSize v := by
  cases v <;> simp [valueSize]

theorem strict_values_rest_zero (tail : List Nat) :
    strict_values_rest 0 tail = .complete [] tail := by
  rw [strict_values_rest.eq_def]

theorem strict_values_first_succ (m : Nat) (input : List Nat) :
    strict_values_first (m + 1) input =
      match script_data_value input with
      | .complete v rem =>
        if rem.length < input.length then
          pmap (fun vs => v :: vs) (strict_values_rest m rem)
        else .error
      | .incomplete n => .incomplete n
      | .error => .error
      | .failure => .failure := by
  rw [strict_values_first.eq_def]
  exact rfl

theorem strict_values_rest_succ (m : Nat) (input : List Nat) :
    strict_values_rest (m + 1) input =
      match script_data_value input with
      | .complete v rem =>
        if rem.length < input.length then
          pmap (fun vs => v :: vs) (strict_values_rest m rem)
        else .error
      | .incomplete n => .incomplete n
      | .error => .complete [] input
      | .failure => .failure := by
  rw [strict_values_rest.eq_def]
  exact rfl

theorem script_data_objects_encode_of_loop {objs : List (List Nat × ScriptDataValue)}
    {tail : List Nat}
    (hloop : script_data_objects_loop (encodeObjs objs ++ (0 :: 0 :: 9 :: tail)) =
      pmap (fun more => objs ++ more)
        (script_data_objects_loop (0 :: 0 :: 9 :: tail))) :
    script_data_objects (encodeObjs objs ++ (0 :: 0 :: 9 :: tail)) =
      .complete objs tail := by
  rw [script_data_objects.eq_def, hloop, script_data_objects_loop_term]
  simp only [pmap, pbind, script_data_object_end, List.append_nil]
  rw [show tagLit [0, 0, 9] (0 :: 0 :: 9 :: tail) = .complete () tail from
    tagLit_self [0, 0, 9] tail]

theorem rt_master (N : Nat) :
    (∀ v : ScriptDataValue, valueSize v ≤ N → validValue v = true →
      ∀ tail, script_data_value (encodeValue v ++ tail) = .complete v tail) ∧
    (∀ objs, pairsSize objs ≤ N → validObjs objs = true →
      ∀ tail, script_data_objects_loop (encodeObjs objs ++ tail) =
        pmap (fun more => objs ++ more) (script_data_objects_loop tail)) ∧
    (∀ vs, valuesSize vs ≤ N → validValues vs = true →
      ∀ m tail, strict_values_rest (vs.length + m) (encodeValues vs ++ tail) =
        pmap (fun more => vs ++ more) (strict_values_rest m tail)) := by
  induction N using Nat.strong_induction_on with
  | _ N IH =>
  refine ⟨?_, ?_, ?_⟩
  · intro v hsz hv tail
    cases v with
    | number bits =>
      simp only [validValue, decide_eq_true_eq] at hv
      have hb : bits < 256 ^ 8 := by rw [← pow_64]; exact hv
      simp only [encodeValue, List.cons_append]
      rw [script_data_value.eq_def]
      show pmap ScriptDataValue.number (be_f64 (beBytes 8 bits ++ tail)) = _
      unfold be_f64
      rw [readBE_beBytes 8 bits tail hb]
      rfl
    | boolean b =>
      simp only [encodeValue, List.cons_append]
      rw [script_data_value.eq_def]
      show pmap (fun n => ScriptDataValue.boolean (n != 0))
        (be_u8 ((if b then 1 else 0) :: tail)) = _
      cases b <;> rfl
    | string s =>
      obtain ⟨hu, hl⟩ := validStr_spec (by simpa [validValue] using hv)
      simp only [encodeValue, List.cons_append, List.append_assoc]
      rw [script_data_value.eq_def]
      show pmap ScriptDataValue.string
        (script_data_string (beBytes 2 s.length ++ (s ++ tail))) = _
      rw [script_data_string_encode s tail hu hl]
      rfl
    | object objs =>
      have hvo : validObjs objs = true := by simpa [validValue] using hv
      have hszo : pairsSize objs + 1 ≤ N := by simpa [valueSize] using hsz
      simp only [encodeValue, List.cons_append, List.append_assoc]
      rw [script_data_value.eq_def]
      show pmap ScriptDataValue.object
        (script_data_objects (encodeObjs objs ++ (0 :: 0 :: 9 :: tail))) = _
      have hloop := (IH (N - 1) (by omega)).2.1 objs (by omega) hvo (0 :: 0 :: 9 :: tail)
      rw [script_data_objects_encode_of_loop hloop]
      rfl
    | movieClip s =>
      obtain ⟨hu, hl⟩ := validStr_spec (by simpa [validValue] using hv)
      simp only [encodeValue, List.cons_append, List.append_assoc]
      rw [script_data_value.eq_def]
      show pmap ScriptDataValue.movieClip
        (script_data_string (beBytes 2 s.length ++ (s ++ tail))) = _
      rw [script_data_string_encode s tail hu hl]
      rfl
    | null =>
      simp only [encodeValue, List.cons_append, List.nil_append]
      rw [script_data_value.eq_def]
    | undefined =>
      simp only [encodeValue, List.cons_append, List.nil_append]
      rw [script_data_value.eq_def]
    | reference r =>
      simp only [validValue, decide_eq_true_eq] at hv
      have hb : r < 256 ^ 2 := by rw [← pow_16]; exact hv
      simp only [encodeValue, List.cons_append]
      rw [script_data_value.eq_def]
      show pmap ScriptDataValue.reference (be_u16 (beBytes 2 r ++ tail)) = _
      unfold be_u16
      rw [readBE_beBytes 2 r tail hb]
      rfl
    | ecmaArray objs =>
      have hvo : validObjs objs = true := by simpa [validValue] using hv
      have hszo : pairsSize objs + 1 ≤ N := by simpa [valueSize] using hsz
      simp only [encodeValue, List.cons_append, List.append_assoc]
      rw [script_data_value.eq_def]
      show pmap ScriptDataValue.ecmaArray
        (script_data_ecma_array
          (beBytes 4 objs.length ++ (encodeObjs objs ++ (0 :: 0 :: 9 :: tail)))) = _
      rw [script_data_ecma_array.eq_def]
      have hbe : be_u32 (beBytes 4 objs.length ++ (encodeObjs objs ++ (0 :: 0 :: 9 :: tail))) =
          .complete (beVal (beBytes 4 objs.length))
            (encodeObjs objs ++ (0 :: 0 :: 9 :: tail)) := by
        unfold be_u32
        have h := readBE_append (beBytes 4 objs.length)
          (encodeObjs objs ++ (0 :: 0 :: 9 :: tail))
        rw [beBytes_length] at h
        exact h
      rw [hbe]
      have hloop := (IH (N - 1) (by omega)).2.1 objs (by omega) hvo (0 :: 0 :: 9 :: tail)
      show pmap ScriptDataValue.ecmaArray
        (script_data_objects (encodeObjs objs ++ (0 :: 0 :: 9 :: tail))) = _
      rw [script_data_objects_encode_of_loop hloop]
      rfl
    | strictArray vs =>
      have hv' : (¬vs = [] ∧ vs.length < 2 ^ 32) ∧ validValues vs = true := by
        simpa [validValue, decide_eq_true_eq] using hv
      obtain ⟨⟨hne, hlt⟩, hvv⟩ := hv'
      have hszv : valuesSize vs + 1 ≤ N := by simpa [valueSize] using hsz
      cases vs with
      | nil => simp at hne
      | cons v rest =>
        have hone := one_le_valueSize v
        simp only [validValues, Bool.and_eq_true] at hvv
        obtain ⟨hvv1, hvvr⟩ := hvv
        have hszvr : valueSize v + valuesSize rest + 1 + 1 ≤ N := by
          simpa [valuesSize] using hszv
        simp only [encodeValue, List.cons_append, List.append_assoc]
        rw [script_data_value.eq_def]
        show pmap ScriptDataValue.strictArray
          (script_data_strict_array
            (beBytes 4 (v :: rest).length ++ (encodeValues (v :: rest) ++ tail))) = _
        rw [script_data_strict_array.eq_def]
        have hbe : be_u32 (beBytes 4 (v :: rest).length ++ (encodeValues (v :: rest) ++ tail)) =
            .complete (v :: rest).length (encodeValues (v :: rest) ++ tail) := by
          unfold be_u32
          exact readBE_beBytes 4 (v :: rest).length _ (by rw [← pow_32]; exact hlt)
        rw [hbe]
        show pmap ScriptDataValue.strictArray
          (if 1 > (v :: rest).length then PResult.failure
           else strict_values_first (v :: rest).length
             (encodeValues (v :: rest) ++ tail)) = _
        rw [if_neg (by simp)]
        simp only [List.length_cons, encodeValues, List.append_assoc]
        rw [strict_values_first_succ]
        have hval := (IH (N - 1) (by omega)).1 v (by omega) hvv1
        rw [hval (encodeValues rest ++ tail)]
        have hlt2 : (encodeValues rest ++ tail).length <
            (encodeValue v ++ (encodeValues rest ++ tail)).length := by
          simp only [List.length_append]
          have := List.length_pos.mpr (encodeValue_ne_nil v)
          omega
        show pmap ScriptDataValue.strictArray
          (if (encodeValues rest ++ tail).length <
              (encodeValue v ++ (encodeValues rest ++ tail)).length then
            pmap (fun vs => v :: vs)
              (strict_values_rest rest.length (encodeValues rest ++ tail))
          else .error) = _
        rw [if_pos hlt2]
        have hrest := (IH (N - 1) (by omega)).2.2 rest (by omega) hvvr 0 tail
        rw [Nat.add_zero, strict_values_rest_zero] at hrest
        simp only [pmap, List.append_nil] at hrest
        rw [hrest]
        rfl
    | date d =>
      obtain ⟨bits, off⟩ := d
      have hv' : (bits < 2 ^ 64 ∧ -(2 ^ 15) ≤ off) ∧ off < 2 ^ 15 := by
        simpa [validValue, decide_eq_true_eq] using hv
      obtain ⟨⟨hb, h1⟩, h2⟩ := hv'
      simp only [encodeValue, List.cons_append, List.append_assoc]
      rw [script_data_value.eq_def]
      show pmap ScriptDataValue.date
        (script_data_date (beBytes 8 bits ++ (beBytes 2 (unsigned16 off) ++ tail))) = _
      unfold script_data_date be_f64
      rw [readBE_beBytes 8 bits _ (by rw [← pow_64]; exact hb)]
      simp only [pbind]
      unfold be_i16
      rw [readBE_beBytes 2 (unsigned16 off) tail (unsigned16_lt off)]
      simp only [pmap]
      rw [signed_unsigned16 off h1 h2]
    | longString s =>
      have hv' : validUtf8 s = true ∧ s.length < 2 ^ 32 := by
        simpa [validValue, decide_eq_true_eq] using hv
      obtain ⟨hu, hl⟩ := hv'
      simp only [encodeValue, List.cons_append, List.append_assoc]
      rw [script_data_value.eq_def]
      show pmap ScriptDataValue.longString
        (script_data_long_string (beBytes 4 s.length ++ (s ++ tail))) = _
      rw [script_data_long_string_encode s tail hu hl]
      rfl
  · intro objs hsz hvo tail
    cases objs with
    | nil =>
      simp only [encodeObjs, List.nil_append]
      exact (pmap_id (script_data_objects_loop tail)).symm
    | cons p rest =>
      obtain ⟨name, v⟩ := p
      have hvo' : (validStr name = true ∧ validValue v = true) ∧ validObjs rest = true := by
        simpa [validObjs, Bool.and_eq_true] using hvo
      obtain ⟨⟨hname, hvv⟩, hrest⟩ := hvo'
      have hsz' : valueSize v + pairsSize rest + 1 ≤ N := by
        simpa [pairsSize] using hsz
      have hone := one_le_valueSize v
      have hval : ∀ t, script_data_value (encodeValue v ++ t) = .complete v t :=
        fun t => (IH (N - 1) (by omega)).1 v (by omega) hvv t
      have hpair := script_data_object_encode name v hname hval
        (encodeObjs rest ++ tail)
      simp only [encodeObjs, List.append_assoc]
      rw [script_data_objects_loop.eq_def]
      rw [hpair]
      have hlt2 : (encodeObjs rest ++ tail).length <
          (encodePair (name, v) ++ (encodeObjs rest ++ tail)).length := by
        simp only [List.length_append, encodePair_length]
        omega
      show (if (encodeObjs rest ++ tail).length <
            (encodePair (name, v) ++ (encodeObjs rest ++ tail)).length then
          pmap (fun objs => (name, v) :: objs)
            (script_data_objects_loop (encodeObjs rest ++ tail))
        else .error) = _
      rw [if_pos hlt2]
      rw [(IH (N - 1) (by omega)).2.1 rest (by omega) hrest tail]
      rw [pmap_pmap]
      exact pmap_congr _ (fun x => rfl)
  · intro vs hsz hvv m tail
    cases vs with
    | nil =>
      simp only [encodeValues, List.nil_append, List.length_nil, Nat.zero_add]
      exact (pmap_id (strict_values_rest m tail)).symm
    | cons v rest =>
      have hvv' : validValue v = true ∧ validValues rest = true := by
        simpa [validValues, Bool.and_eq_true] using hvv
      obtain ⟨hvv1, hvvr⟩ := hvv'
      have hsz' : valueSize v + valuesSize rest + 1 ≤ N := by
        simpa [valuesSize] using hsz
      have hone := one_le_valueSize v
      have harith : (v :: rest).length + m = (rest.length + m) + 1 := by
        simp only [List.length_cons]
        omega
      rw [harith]
      simp only [encodeValues, List.append_assoc]
      rw [strict_values_rest_succ]
      have hval := (IH (N - 1) (by omega)).1 v (by omega) hvv1
      rw [hval (encodeValues rest ++ tail)]
      have hlt2 : (encodeValues rest ++ tail).length <
          (encodeValue v ++ (encodeValues rest ++ tail)).length := by
        simp only [List.length_append]
        have := List.length_pos.mpr (encodeValue_ne_nil v)
        omega
      show (if (encodeValues rest ++ tail).length <
            (encodeValue v ++ (encodeValues rest ++ tail)).length then
          pmap (fun vs => v :: vs)
            (strict_values_rest (rest.length + m) (encodeValues rest ++ tail))
        else .error) = _
      rw [if_pos hlt2]
      rw [(IH (N - 1) (by omega)).2.2 rest (by omega) hvvr m tail]
      rw [pmap_pmap]
      exact pmap_congr _ (fun x => rfl)


/-! ### Instantiated round-trip corollaries -/

theorem rt_value (v : ScriptDataValue) (hv : validValue v = true) (tail : List Nat) :
    script_data_value (encodeValue v ++ tail) = .complete v tail :=
  (rt_master (valueSize v)).1 v le_rfl hv tail

theorem rt_objects_loop (objs : List (List Nat × ScriptDataValue))
    (hv : validObjs objs = true) (tail : List Nat) :
    script_data_objects_loop (encodeObjs objs ++ tail) =
      pmap (fun more => objs ++ more) (script_data_objects_loop tail) :=
  (rt_master (pairsSize objs)).2.1 objs le_rfl hv tail

theorem rt_values_rest (vs : List ScriptDataValue) (hv : validValues vs = true)
    (m : Nat) (tail : List Nat) :
    strict_values_rest (vs.length + m) (encodeValues vs ++ tail) =
      pmap (fun more => vs ++ more) (strict_values_rest m tail) :=
  (rt_master (valuesSize vs)).2.2 vs le_rfl hv m tail

/-- The first `many_m_n` iteration over an encoded head value. -/
theorem strict_first_encode (v : ScriptDataValue) (rest : List ScriptDataValue)
    (m : Nat) (hv : validValue v = true) (hrest : validValues rest = true)
    (tail : List Nat) :
    strict_values_first ((rest.length + m) + 1) (encodeValues (v :: rest) ++ tail) =
      pmap (fun more => v :: (rest ++ more)) (strict_values_rest m tail) := by
  simp only [encodeValues, List.append_assoc]
  rw [strict_values_first_succ]
  rw [rt_value v hv (encodeValues rest ++ tail)]
  have hlt2 : (encodeValues rest ++ tail).length <
      (encodeValue v ++ (encodeValues rest ++ tail)).length := by
    simp only [List.length_append]
    have := List.length_pos.mpr (encodeValue_ne_nil v)
    omega
  show (if (encodeValues rest ++ tail).length <
        (encodeValue v ++ (encodeValues rest ++ tail)).length then
      pmap (fun vs => v :: vs)
        (strict_values_rest (rest.length + m) (encodeValues rest ++ tail))
    else .error) = _
  rw [if_pos hlt2]
  rw [rt_values_rest rest hrest m tail]
  rw [pmap_pmap]

/-! ### Claim C6 -/

/-- C6: the object-list decoder (used by Object and ECMAArray) reads
`(name, value)` pairs up to the terminator `00 00 09`, consuming it and
excluding it from the result; an immediate terminator yields the empty
list; decoded pairs appear in input order; and a buffer holding only
encoded pairs with the terminator removed yields `Incomplete` (needing the
2 bytes of a next name length), not a hard failure. -/
theorem c6_object_list :
    (∀ (objs : List (List Nat × ScriptDataValue)) (tail : List Nat),
      validObjs objs = true →
      script_data_objects (encodeObjs objs ++ (0 :: 0 :: 9 :: tail)) =
        .complete objs tail) ∧
    (∀ objs, validObjs objs = true →
      script_data_objects (encodeObjs objs) = .incomplete 2) ∧
    (∀ rest : List Nat,
      script_data_objects (0 :: 0 :: 9 :: rest) = .complete [] rest) ∧
    (∀ (c1 c2 c3 c4 : Nat) (rest : List Nat),
      script_data_ecma_array (c1 :: c2 :: c3 :: c4 :: rest) =
        script_data_objects rest) := by
  refine ⟨?_, ?_, ?_, ?_⟩
  · intro objs tail hv
    exact script_data_objects_encode_of_loop (rt_objects_loop objs hv _)
  · intro objs hv
    have h := rt_objects_loop objs hv []
    rw [List.append_nil] at h
    rw [script_data_objects.eq_def, h, script_data_objects_loop_nil]
    rfl
  · intro rest
    rw [script_data_objects.eq_def, script_data_objects_loop_term]
    simp only [pbind, script_data_object_end]
    rw [show tagLit [0, 0, 9] (0 :: 0 :: 9 :: rest) = .complete () rest from
      tagLit_self [0, 0, 9] rest]
    rfl
  · intro c1 c2 c3 c4 rest
    rw [script_data_ecma_array.eq_def]
    have hbe : be_u32 (c1 :: c2 :: c3 :: c4 :: rest) =
        .complete (((c1 * 256 + c2) * 256 + c3) * 256 + c4) rest := by
      unfold be_u32
      rw [readBE_four]
    rw [hbe]

/-- C6 witness: one named boolean entry, terminator, empty tail; and the
same buffer without its terminator. -/
theorem c6_witness :
    script_data_objects
        (encodeObjs [([65], .boolean true)] ++ (0 :: 0 :: 9 :: [])) =
      .complete [([65], .boolean true)] [] ∧
    script_data_objects (encodeObjs [([65], .boolean true)]) = .incomplete 2 :=
  ⟨c6_object_list.1 [([65], .boolean true)] [] (by decide),
   c6_object_list.2.1 [([65], .boolean true)] (by decide)⟩

/-! ### Claim C3 -/

/-- C3 counterexample: a StrictArray count of 0 is a hard `Err::Failure`
(nom's `many_m_n` rejects `min > max`), not an empty array; and with
count 2, one valid value followed by a recoverably-failing byte returns a
successful 1-element result, not Incomplete. -/
theorem c3_counterexample :
    script_data_strict_array [0, 0, 0, 0] = .failure ∧
    script_data_strict_array [0, 0, 0, 2, 5, 9] = .complete [.null] [9] := by
  constructor
  · rw [script_data_strict_array.eq_def]
    have hbe : be_u32 [0, 0, 0, 0] = .complete 0 [] := by
      unfold be_u32
      rw [readBE_four]
    rw [hbe]
    show (if 1 > 0 then PResult.failure else strict_values_first 0 []) = _
    rw [if_pos (by norm_num)]
  · rw [script_data_strict_array.eq_def]
    have hbe : be_u32 [0, 0, 0, 2, 5, 9] = .complete 2 [5, 9] := by
      unfold be_u32
      rw [readBE_four]
    rw [hbe]
    show (if 1 > 2 then PResult.failure else strict_values_first 2 [5, 9]) = _
    rw [if_neg (by norm_num)]
    show strict_values_first (1 + 1) [5, 9] = _
    rw [strict_values_first_succ]
    have hval5 : script_data_value [5, 9] = .complete .null [9] := by
      rw [script_data_value.eq_def]
    rw [hval5]
    show (if ([9] : List Nat).length < ([5, 9] : List Nat).length then
        pmap (fun vs => ScriptDataValue.null :: vs) (strict_values_rest 1 [9])
      else .error) = _
    rw [if_pos (by simp)]
    rw [show strict_values_rest 1 [9] = .complete [] [9] from by
      rw [show (1 : Nat) = 0 + 1 from rfl, strict_values_rest_succ,
        script_data_value_nine]]
    rfl

/-- C3 (amended): the StrictArray decoder reads a u32 count N and then
between 1 and N values: a count of 0 is a hard failure (`Err::Failure`);
exactly N encoded values yield those N values in order; after at least one
value, a recoverable element error ends the loop successfully with the
values so far (fewer than N); an element decoder reporting Incomplete
(input exhaustion) propagates as Incomplete, both before the first value
and between values. -/
theorem c3_strict_array_semantics :
    (∀ rest : List Nat,
      script_data_strict_array (0 :: 0 :: 0 :: 0 :: rest) = .failure) ∧
    (∀ (vs : List ScriptDataValue) (tail : List Nat),
      validValues vs = true → vs ≠ [] → vs.length < 2 ^ 32 →
      script_data_strict_array (beBytes 4 vs.length ++ (encodeValues vs ++ tail)) =
        .complete vs tail) ∧
    (∀ (N : Nat) (vs : List ScriptDataValue) (tail : List Nat),
      validValues vs = true → vs ≠ [] → vs.length < N → N < 2 ^ 32 →
      (script_data_value tail = .error →
        script_data_strict_array (beBytes 4 N ++ (encodeValues vs ++ tail)) =
          .complete vs tail) ∧
      (∀ k, script_data_value tail = .incomplete k →
        script_data_strict_array (beBytes 4 N ++ (encodeValues vs ++ tail)) =
          .incomplete k)) ∧
    (∀ (N : Nat) (tail : List Nat) (k : Nat), 1 ≤ N → N < 2 ^ 32 →
      script_data_value tail = .incomplete k →
      script_data_strict_array (beBytes 4 N ++ tail) = .incomplete k) := by
  refine ⟨?_, ?_, ?_, ?_⟩
  · intro rest
    rw [script_data_strict_array.eq_def]
    have hbe : be_u32 (0 :: 0 :: 0 :: 0 :: rest) = .complete 0 rest := by
      unfold be_u32
      rw [readBE_four]
    rw [hbe]
    show (if 1 > 0 then PResult.failure else strict_values_first 0 rest) = _
    rw [if_pos (by norm_num)]
  · intro vs tail hv hne hlt
    cases vs with
    | nil => exact absurd rfl hne
    | cons v rest =>
      simp only [validValues, Bool.and_eq_true] at hv
      obtain ⟨hv1, hvr⟩ := hv
      rw [script_data_strict_array.eq_def]
      have hbe : be_u32 (beBytes 4 (v :: rest).length ++ (encodeValues (v :: rest) ++ tail)) =
          .complete (v :: rest).length (encodeValues (v :: rest) ++ tail) := by
        unfold be_u32
        exact readBE_beBytes 4 _ _ (by rw [← pow_32]; exact hlt)
      rw [hbe]
      show (if 1 > (v :: rest).length then PResult.failure
        else strict_values_first (v :: rest).length
          (encodeValues (v :: rest) ++ tail)) = _
      rw [if_neg (by simp)]
      have harith : (v :: rest).length = (rest.length + 0) + 1 := by
        simp only [List.length_cons]
      rw [harith, strict_first_encode v rest 0 hv1 hvr tail, strict_values_rest_zero]
      simp only [pmap, List.append_nil]
  · intro N vs tail hv hne hlenN hN
    cases vs with
    | nil => exact absurd rfl hne
    | cons v rest =>
      simp only [validValues, Bool.and_eq_true] at hv
      obtain ⟨hv1, hvr⟩ := hv
      have hbe : be_u32 (beBytes 4 N ++ (encodeValues (v :: rest) ++ tail)) =
          .complete N (encodeValues (v :: rest) ++ tail) := by
        unfold be_u32
        exact readBE_beBytes 4 _ _ (by rw [← pow_32]; exact hN)
      have hlen : (v :: rest).length = rest.length + 1 := by
        simp only [List.length_cons]
      obtain ⟨M, hM1, hM2⟩ : ∃ M, 1 ≤ M ∧ N = (rest.length + M) + 1 :=
        ⟨N - rest.length - 1, by omega, by omega⟩
      constructor
      · intro herr
        rw [script_data_strict_array.eq_def, hbe]
        show (if 1 > N then PResult.failure
          else strict_values_first N (encodeValues (v :: rest) ++ tail)) = _
        rw [if_neg (by omega)]
        rw [hM2, strict_first_encode v rest M hv1 hvr tail]
        obtain ⟨M', rfl⟩ : ∃ M', M = M' + 1 := ⟨M - 1, by omega⟩
        rw [strict_values_rest_succ, herr]
        simp only [pmap, List.append_nil]
      · intro k hk
        rw [script_data_strict_array.eq_def, hbe]
        show (if 1 > N then PResult.failure
          else strict_values_first N (encodeValues (v :: rest) ++ tail)) = _
        rw [if_neg (by omega)]
        rw [hM2, strict_first_encode v rest M hv1 hvr tail]
        obtain ⟨M', rfl⟩ : ∃ M', M = M' + 1 := ⟨M - 1, by omega⟩
        rw [strict_values_rest_succ, hk]
        rfl
  · intro N tail k hN1 hN hk
    have hbe : be_u32 (beBytes 4 N ++ tail) = .complete N tail := by
      unfold be_u32
      exact readBE_beBytes 4 _ _ (by rw [← pow_32]; exact hN)
    rw [script_data_strict_array.eq_def, hbe]
    show (if 1 > N then PResult.failure else strict_values_first N tail) = _
    rw [if_neg (by omega)]
    obtain ⟨N', rfl⟩ : ∃ N', N = N' + 1 := ⟨N - 1, by omega⟩
    rw [strict_values_first_succ, hk]

/-- C3 witness: the amended statement at a one-element array of Null with
count 1, and exhaustion (empty input after the count) with count 1. -/
theorem c3_witness :
    script_data_strict_array
        (beBytes 4 ([ScriptDataValue.null] : List ScriptDataValue).length ++
          (encodeValues [ScriptDataValue.null] ++ [])) =
      .complete [ScriptDataValue.null] [] ∧
    script_data_strict_array (beBytes 4 1 ++ []) = .incomplete 1 :=
  ⟨c3_strict_array_semantics.2.1 [ScriptDataValue.null] [] (by decide)
      (by simp) (by norm_num),
   c3_strict_array_semantics.2.2.2 1 [] 1 (by norm_num) (by norm_num)
      (by rw [script_data_value.eq_def])⟩

/-! ### Claim C7: totality and in-bounds remainders -/

theorem suffix_pmap {α β : Type} {f : α → β} {r : PResult α} {input : List Nat}
    (h : ∀ v rem, r = .complete v rem → rem.IsSuffix input) :
    ∀ v rem, pmap f r = .complete v rem → rem.IsSuffix input := by
  intro v rem hm
  obtain ⟨v1, hr, -⟩ := pmap_complete_inv hm
  exact h v1 rem hr

theorem readBE_suffix {k : Nat} {input : List Nat} :
    ∀ v rem, readBE k input = .complete v rem → rem.IsSuffix input := by
  intro v rem h
  rw [(readBE_complete h).2]
  exact List.drop_suffix k input

theorem be_u8_suffix {input : List Nat} :
    ∀ v rem, be_u8 input = .complete v rem → rem.IsSuffix input := by
  intro v rem h
  rw [be_u8_complete_inv h]
  exact List.suffix_cons v rem

theorem takeBytes_suffix {k : Nat} {input : List Nat} :
    ∀ v rem, takeBytes k input = .complete v rem → rem.IsSuffix input := by
  intro v rem h
  rw [(takeBytes_complete h).2.2]
  exact List.drop_suffix k input

theorem tagLit_suffix (t : List Nat) {input : List Nat} :
    ∀ v rem, tagLit t input = .complete v rem → rem.IsSuffix input := by
  induction t generalizing input with
  | nil =>
    intro v rem h
    simp only [tagLit, PResult.complete.injEq] at h
    rw [← h.2]
  | cons t0 ts ih =>
    intro v rem h
    cases input with
    | nil => exact absurd h (by simp [tagLit])
    | cons b bs =>
      simp only [tagLit] at h
      split at h
      · exact (ih v rem h).trans (List.suffix_cons b bs)
      · exact absurd h (by simp)

theorem script_data_string_suffix {input : List Nat} :
    ∀ v rem, script_data_string input = .complete v rem → rem.IsSuffix input := by
  intro v rem h
  unfold script_data_string at h
  obtain ⟨len, r1, h1, h⟩ := pbind_complete_inv h
  obtain ⟨bytes, r2, h2, h⟩ := pbind_complete_inv h
  have hs1 : r1.IsSuffix input := readBE_suffix len r1 h1
  have hs2 : r2.IsSuffix r1 := takeBytes_suffix bytes r2 h2
  split at h
  · simp only [PResult.complete.injEq] at h
    rw [← h.2]
    exact hs2.trans hs1
  · exact absurd h (by simp)

theorem script_data_long_string_suffix {input : List Nat} :
    ∀ v rem, script_data_long_string input = .complete v rem → rem.IsSuffix input := by
  intro v rem h
  unfold script_data_long_string at h
  obtain ⟨len, r1, h1, h⟩ := pbind_complete_inv h
  obtain ⟨bytes, r2, h2, h⟩ := pbind_complete_inv h
  have hs1 : r1.IsSuffix input := readBE_suffix len r1 h1
  have hs2 : r2.IsSuffix r1 := takeBytes_suffix bytes r2 h2
  split at h
  · simp only [PResult.complete.injEq] at h
    rw [← h.2]
    exact hs2.trans hs1
  · exact absurd h (by simp)

theorem script_data_date_suffix {input : List Nat} :
    ∀ v rem, script_data_date input = .complete v rem → rem.IsSuffix input := by
  intro v rem h
  unfold script_data_date be_f64 be_i16 at h
  obtain ⟨dt, r1, h1, h⟩ := pbind_complete_inv h
  have hs1 : r1.IsSuffix input := readBE_suffix dt r1 h1
  obtain ⟨off, hr, -⟩ := pmap_complete_inv h
  obtain ⟨n, hr2, -⟩ := pmap_complete_inv hr
  exact ((readBE_suffix n rem hr2).trans hs1)

/-- Every completed parse of the metadata grammar returns a remainder that
is a suffix of its input: the decoders never step outside the supplied
byte slice. -/
theorem suffix_master (L : Nat) : ∀ input : List Nat, input.length ≤ L →
    (∀ v rem, script_data_value input = .complete v rem → rem.IsSuffix input) ∧
    (∀ p rem, script_data_object input = .complete p rem → rem.IsSuffix input) ∧
    (∀ os rem, script_data_objects_loop input = .complete os rem → rem.IsSuffix input) ∧
    (∀ os rem, script_data_objects input = .complete os rem → rem.IsSuffix input) ∧
    (∀ os rem, script_data_ecma_array input = .complete os rem → rem.IsSuffix input) ∧
    (∀ vs rem, script_data_strict_array input = .complete vs rem → rem.IsSuffix input) ∧
    (∀ m vs rem, strict_values_first m input = .complete vs rem → rem.IsSuffix input) ∧
    (∀ m vs rem, strict_values_rest m input = .complete vs rem → rem.IsSuffix input) := by
  induction L using Nat.strong_induction_on with
  | _ L IH =>
  intro input hlen
  have Hvalue : ∀ v rem, script_data_value input = .complete v rem →
      rem.IsSuffix input := by
    intro v rem h
    rw [script_data_value.eq_def] at h
    split at h
    all_goals try split at h
    all_goals
      first
      | (simp only [PResult.complete.injEq] at h
         rw [← h.2]
         exact List.suffix_cons _ _)
      | (refine absurd h ?_
         simp)
      | exact ((suffix_pmap readBE_suffix v rem h).trans (List.suffix_cons _ _))
      | exact ((suffix_pmap be_u8_suffix v rem h).trans (List.suffix_cons _ _))
      | exact ((suffix_pmap script_data_string_suffix v rem h).trans
          (List.suffix_cons _ _))
      | exact ((suffix_pmap script_data_date_suffix v rem h).trans
          (List.suffix_cons _ _))
      | exact ((suffix_pmap script_data_long_string_suffix v rem h).trans
          (List.suffix_cons _ _))
      | (simp only [List.length_cons] at hlen
         refine (suffix_pmap ?_ v rem h).trans (List.suffix_cons _ _)
         intro os r hr
         exact ((IH (L - 1) (by omega)) _ (by omega)).2.2.2.1 os r hr)
      | (simp only [List.length_cons] at hlen
         refine (suffix_pmap ?_ v rem h).trans (List.suffix_cons _ _)
         intro os r hr
         exact ((IH (L - 1) (by omega)) _ (by omega)).2.2.2.2.1 os r hr)
      | (simp only [List.length_cons] at hlen
         refine (suffix_pmap ?_ v rem h).trans (List.suffix_cons _ _)
         intro os r hr
         exact ((IH (L - 1) (by omega)) _ (by omega)).2.2.2.2.2.1 os r hr)
  have Hobject : ∀ p rem, script_data_object input = .complete p rem →
      rem.IsSuffix input := by
    intro p rem h
    rw [script_data_object.eq_def] at h
    split at h
    case _ name rem0 heq =>
      have hs0 : rem0.IsSuffix input := script_data_string_suffix name rem0 heq
      have hlt0 : rem0.length < input.length := script_data_string_consumes heq
      have hv := ((IH (L - 1) (by omega)) rem0 (by omega)).1
      exact (suffix_pmap hv p rem h).trans hs0
    all_goals exact absurd h (by simp)
  have Hloop : ∀ os rem, script_data_objects_loop input = .complete os rem →
      rem.IsSuffix input := by
    intro os rem h
    rw [script_data_objects_loop.eq_def] at h
    split at h
    case _ obj rem0 heq =>
      have hs0 : rem0.IsSuffix input := Hobject obj rem0 heq
      split at h
      case isTrue hlt0 =>
        have hl := (((IH (L - 1) (by omega)) rem0 (by omega)).2.2.1)
        exact (suffix_pmap hl os rem h).trans hs0
      case isFalse => exact absurd h (by simp)
    case _ => exact absurd h (by simp)
    case _ heq =>
      simp only [PResult.complete.injEq] at h
      rw [← h.2]
    case _ => exact absurd h (by simp)
  have Hobjects : ∀ os rem, script_data_objects input = .complete os rem →
      rem.IsSuffix input := by
    intro os rem h
    rw [script_data_objects.eq_def] at h
    obtain ⟨os1, rem1, h1, h⟩ := pbind_complete_inv h
    have hs1 : rem1.IsSuffix input := Hloop os1 rem1 h1
    exact (suffix_pmap (tagLit_suffix [0, 0, 9]) os rem h).trans hs1
  have Hecma : ∀ os rem, script_data_ecma_array input = .complete os rem →
      rem.IsSuffix input := by
    intro os rem h
    rw [script_data_ecma_array.eq_def] at h
    split at h
    case _ o rem0 heq =>
      unfold be_u32 at heq
      obtain ⟨hk, hr⟩ := readBE_complete heq
      have hs0 : rem0.IsSuffix input := by
        rw [hr]
        exact List.drop_suffix 4 input
      have hlt0 : rem0.length < input.length := by
        rw [hr]
        simp only [List.length_drop]
        omega
      have ho := ((IH (L - 1) (by omega)) rem0 (by omega)).2.2.2.1
      exact (ho os rem h).trans hs0
    all_goals exact absurd h (by simp)
  have Hstrict : ∀ vs rem, script_data_strict_array input = .complete vs rem →
      rem.IsSuffix input := by
    intro vs rem h
    rw [script_data_strict_array.eq_def] at h
    split at h
    case _ o rem0 heq =>
      unfold be_u32 at heq
      obtain ⟨hk, hr⟩ := readBE_complete heq
      have hs0 : rem0.IsSuffix input := by
        rw [hr]
        exact List.drop_suffix 4 input
      have hlt0 : rem0.length < input.length := by
        rw [hr]
        simp only [List.length_drop]
        omega
      split at h
      · exact absurd h (by simp)
      · have hf := ((IH (L - 1) (by omega)) rem0 (by omega)).2.2.2.2.2.2.1
        exact (hf o vs rem h).trans hs0
    all_goals exact absurd h (by simp)
  have Hfirst : ∀ m vs rem, strict_values_first m input = .complete vs rem →
      rem.IsSuffix input := by
    intro m vs rem h
    cases m with
    | zero =>
      rw [strict_values_first.eq_def] at h
      simp only [PResult.complete.injEq] at h
      rw [← h.2]
    | succ m' =>
      rw [strict_values_first_succ] at h
      split at h
      case _ v1 rem0 heq =>
        have hs0 : rem0.IsSuffix input := Hvalue v1 rem0 heq
        split at h
        case isTrue hlt0 =>
          have hr := ((IH (L - 1) (by omega)) rem0 (by omega)).2.2.2.2.2.2.2
          exact (suffix_pmap (hr m') vs rem h).trans hs0
        case isFalse => exact absurd h (by simp)
      all_goals exact absurd h (by simp)
  have Hrest : ∀ m vs rem, strict_values_rest m input = .complete vs rem →
      rem.IsSuffix input := by
    intro m vs rem h
    cases m with
    | zero =>
      rw [strict_values_rest.eq_def] at h
      simp only [PResult.complete.injEq] at h
      rw [← h.2]
    | succ m' =>
      rw [strict_values_rest_succ] at h
      split at h
      case _ v1 rem0 heq =>
        have hs0 : rem0.IsSuffix input := Hvalue v1 rem0 heq
        split at h
        case isTrue hlt0 =>
          have hr := ((IH (L - 1) (by omega)) rem0 (by omega)).2.2.2.2.2.2.2
          exact (suffix_pmap (hr m') vs rem h).trans hs0
        case isFalse => exact absurd h (by simp)
      case _ => exact absurd h (by simp)
      case _ =>
        simp only [PResult.complete.injEq] at h
        rw [← h.2]
      case _ => exact absurd h (by simp)
  exact ⟨Hvalue, Hobject, Hloop, Hobjects, Hecma, Hstrict, Hfirst, Hrest⟩

theorem presult_cases {α : Type} (r : PResult α) :
    (∃ v rem, r = .complete v rem) ∨ (∃ n, r = .incomplete n) ∨
      r = .error ∨ r = .failure := by
  cases r with
  | complete v rem => exact Or.inl ⟨v, rem, rfl⟩
  | incomplete n => exact Or.inr (Or.inl ⟨n, rfl⟩)
  | error => exact Or.inr (Or.inr (Or.inl rfl))
  | failure => exact Or.inr (Or.inr (Or.inr rfl))

theorem tag_type_suffix {input : List Nat} :
    ∀ tt rem, tag_type input = .complete tt rem → rem.IsSuffix input := by
  intro tt rem h
  rw [tag_type_complete_inv h]
  exact List.drop_suffix 1 input

theorem tag_data_suffix (tt : TagType) (size : Nat) {input : List Nat} :
    ∀ d rem, tag_data tt size input = .complete d rem → rem.IsSuffix input := by
  intro d rem h
  cases tt with
  | Video =>
    simp only [tag_data] at h
    obtain ⟨a, ha, -⟩ := pmap_complete_inv h
    rw [video_data_rem ha]
    exact List.drop_suffix size input
  | Audio =>
    simp only [tag_data] at h
    obtain ⟨a, ha, -⟩ := pmap_complete_inv h
    rw [audio_data_rem ha]
    exact List.drop_suffix size input
  | Script =>
    simp only [tag_data, PResult.complete.injEq] at h
    rw [← h.2]

/-- C7: every public decode entry point is a total function over arbitrary
byte input — modelled here as total Lean functions, whose termination on the
unboundedly recursive metadata grammar is established by the definitions
themselves — returning exactly one of Complete, Incomplete, Error or
Failure, and a completed parse never reads out of bounds: its unconsumed
remainder is a suffix of the supplied input. -/
theorem c7_decoders_total_and_in_bounds (bs : List Nat) :
    ((∃ v rem, header bs = .complete v rem) ∨ (∃ n, header bs = .incomplete n) ∨
      header bs = .error ∨ header bs = .failure) ∧
    ((∃ t rem, complete_tag bs = .complete t rem) ∨
      (∃ n, complete_tag bs = .incomplete n) ∨
      complete_tag bs = .error ∨ complete_tag bs = .failure) ∧
    ((∃ v rem, script_data_value bs = .complete v rem) ∨
      (∃ n, script_data_value bs = .incomplete n) ∨
      script_data_value bs = .error ∨ script_data_value bs = .failure) ∧
    ((∃ d rem, script_data bs = .complete d rem) ∨
      (∃ n, script_data bs = .incomplete n) ∨
      script_data bs = .error ∨ script_data bs = .failure) ∧
    (∀ v rem, header bs = .complete v rem → rem.IsSuffix bs) ∧
    (∀ t rem, complete_tag bs = .complete t rem → rem.IsSuffix bs) ∧
    (∀ v rem, script_data_value bs = .complete v rem → rem.IsSuffix bs) ∧
    (∀ d rem, script_data bs = .complete d rem → rem.IsSuffix bs) := by
  refine ⟨presult_cases _, presult_cases _, presult_cases _, presult_cases _,
    ?_, ?_, ?_, ?_⟩
  · intro v rem h
    unfold header at h
    obtain ⟨u, r1, h1, h⟩ := pbind_complete_inv h
    obtain ⟨ver, r2, h2, h⟩ := pbind_complete_inv h
    obtain ⟨fl, r3, h3, h⟩ := pbind_complete_inv h
    obtain ⟨o, ho, -⟩ := pmap_complete_inv h
    have s1 := tagLit_suffix [0x46, 0x4C, 0x56] u r1 h1
    have s2 := be_u8_suffix ver r2 h2
    have s3 := be_u8_suffix fl r3 h3
    have s4 : rem.IsSuffix r3 := by
      unfold be_u32 at ho
      exact readBE_suffix o rem ho
    exact ((s4.trans s3).trans s2).trans s1
  · intro t rem h
    unfold complete_tag at h
    obtain ⟨tt, r1, h1, h⟩ := pbind_complete_inv h
    obtain ⟨ds, r2, h2, h⟩ := pbind_complete_inv h
    obtain ⟨ts, r3, h3, h⟩ := pbind_complete_inv h
    obtain ⟨te, r4, h4, h⟩ := pbind_complete_inv h
    obtain ⟨sid, r5, h5, h⟩ := pbind_complete_inv h
    obtain ⟨d, hd, -⟩ := pmap_complete_inv h
    have s1 := tag_type_suffix tt r1 h1
    have s2 : r2.IsSuffix r1 := by
      unfold be_u24 at h2
      exact readBE_suffix ds r2 h2
    have s3 : r3.IsSuffix r2 := by
      unfold be_u24 at h3
      exact readBE_suffix ts r3 h3
    have s4 := be_u8_suffix te r4 h4
    have s5 : r5.IsSuffix r4 := by
      unfold be_u24 at h5
      exact readBE_suffix sid r5 h5
    have s6 := tag_data_suffix tt ds d rem hd
    exact ((((s6.trans s5).trans s4).trans s3).trans s2).trans s1
  · exact (suffix_master bs.length bs le_rfl).1
  · intro d rem h
    unfold script_data at h
    obtain ⟨u, r1, h1, h⟩ := pbind_complete_inv h
    obtain ⟨name, r2, h2, h⟩ := pbind_complete_inv h
    obtain ⟨v, hv, -⟩ := pmap_complete_inv h
    have s1 := tagLit_suffix [2] u r1 h1
    have s2 := script_data_string_suffix name r2 h2
    have s3 := (suffix_master r2.length r2 le_rfl).1 v rem hv
    exact (s3.trans s2).trans s1

/-- C7 witness: the in-bounds property applied at the concrete metadata
input `[5]` (a Null value), whose remainder `[]` is a suffix of it. -/
theorem c7_witness : ([] : List Nat).IsSuffix [5] :=
  (c7_decoders_total_and_in_bounds [5]).2.2.2.2.2.2.1 ScriptDataValue.null []
    (by rw [script_data_value.eq_def])

end Flavors
